import Mathlib
/-!
Verification development for the rigoros kernel's memory subsystem:
a shallow embedding of the buddy page allocator (`src/buddyblock/src/lib.rs`)
and of the slab allocator (`src/slab_alloc/src/lib.rs`), with theorems
settling the specification claims about them.

Machine integers are modelled as `Nat`; in the source all arithmetic that
matters here is on values far below the word size, except where noted.
Assertion failures (Rust `assert!`, which panics) are modelled as
`Except.error`.
-/
set_option maxRecDepth 100000
set_option autoImplicit false

namespace Rigoros

/-- Result test for modelled fallible operations. -/
def isOkE {ε α : Type} : Except ε α → Bool
  | .ok _ => true
  | .error _ => false

end Rigoros

namespace Rigoros

namespace Buddy

/-- `UNIT_SIZE` from `buddyblock/src/lib.rs`. -/
def UNIT_SIZE : Nat := 4096

/-- `num_integer::div_ceil` on `usize` (arguments here are always small). -/
def divCeil (a b : Nat) : Nat := (a + b - 1) / b

/-- One level descriptor: the packed bitmap bytes and the cached count of set
bits (`BlockBitmap` in the source; the raw `bits` pointer becomes the byte
list itself). -/
structure BlockBitmap where
  bits : List Nat
  count : Nat
deriving DecidableEq, Repr

instance : Inhabited BlockBitmap := ⟨⟨[], 0⟩⟩

/-- `BuddyBlockInfo` (field `levels` is `u32` in the source). -/
structure BuddyBlockInfo where
  raw_addr : Nat
  total_len : Nat
  metadata_len : Nat
  data_offset : Nat
  units : Nat
  levels : Nat
deriving DecidableEq, Repr

/-- `BuddyBlock`: layout info, used byte counter, and the per-level bitmaps. -/
structure BuddyBlock where
  info : BuddyBlockInfo
  used : Nat
  bitmaps : List BlockBitmap
deriving DecidableEq, Repr

/-- The `loop` in `BuddyBlockInfo::from_chunk` accumulating `levels` and
`bits`, written with structural fuel so that it evaluates by kernel
reduction.  The source enters the loop with `block_count = units ≥ 1` and
halves it each round, so `block_count` itself is always enough fuel (the
fuel-exhausted and `block_count = 0` cases are unreachable there). -/
def chunkLoopGo : Nat → Nat → Nat → Nat → Nat × Nat
  | 0, _, levels, bits => (levels, bits)
  | fuel + 1, block_count, levels, bits =>
    let levels' := levels + 1
    let bits' := bits + (block_count - 1) / 8 + 1
    if block_count ≤ 1 then (levels', bits')
    else chunkLoopGo fuel (block_count / 2) levels' bits'

def chunkLoop (block_count levels bits : Nat) : Nat × Nat :=
  chunkLoopGo block_count block_count levels bits

/-- `size_of::<BlockBitmap>()` on x86-64: a pointer plus a `usize`. -/
def sizeOfBlockBitmap : Nat := 16

/-- `BuddyBlockInfo::from_chunk`. -/
def BuddyBlockInfo.from_chunk (addr len : Nat) : Except String BuddyBlockInfo :=
  if ¬ len > UNIT_SIZE then .error "assertion failed: len > UNIT_SIZE" else
  let units := (len - 1) / UNIT_SIZE + 1
  let (levels, bits) := chunkLoop units 0 0
  let metadata_len := levels * sizeOfBlockBitmap + bits
  if ¬ metadata_len < len then .error "assertion failed: metadata_len < len" else
  .ok { raw_addr := addr, total_len := len, metadata_len := metadata_len,
        data_offset := 0, units := units, levels := levels }

/-- `BuddyBlockInfo::new`. -/
def BuddyBlockInfo.new (raw_addr total_len : Nat) : Except String BuddyBlockInfo := do
  let tmp ← BuddyBlockInfo.from_chunk raw_addr total_len
  let data_offset := divCeil tmp.metadata_len UNIT_SIZE * UNIT_SIZE
  let info ← BuddyBlockInfo.from_chunk (raw_addr + data_offset) (total_len - data_offset)
  if ¬ info.metadata_len < data_offset then
    .error "assertion failed: info.metadata_len < data_offset"
  else
    .ok { info with raw_addr := raw_addr, total_len := total_len, data_offset := data_offset }

/-- One iteration of the bitmap-initialisation `loop` of `BuddyBlock::new`:
the level gets `(block_count - 1) / 8 + 1` zero bytes; when the block count
is odd, the trailing block's bit is pre-set and the count is 1. -/
def initEntry (block_count : Nat) : BlockBitmap :=
  let bits_len := (block_count - 1) / 8 + 1
  let zeros := List.replicate bits_len 0
  if block_count % 2 ≠ 0 then
    { bits := zeros.set (bits_len - 1) (1 <<< (block_count % 8 - 1)), count := 1 }
  else
    { bits := zeros, count := 0 }

/-- The whole initialisation loop: one entry per level, halving
`block_count`, stopping when it reaches 0 (structural fuel as in
`chunkLoopGo`; `block_count` is always enough). -/
def initBitmapsGo : Nat → Nat → List BlockBitmap
  | 0, _ => []
  | fuel + 1, block_count =>
    if block_count = 0 then []
    else initEntry block_count :: initBitmapsGo fuel (block_count / 2)

def initBitmaps (block_count : Nat) : List BlockBitmap :=
  initBitmapsGo block_count block_count

/-- `BuddyBlock::new` (the raw-pointer layout of the metadata region is not
modelled; the source's internal `assert_eq!` consistency checks on it always
hold). -/
def BuddyBlock.new (raw_addr total_len : Nat) : Except String BuddyBlock := do
  let info ← BuddyBlockInfo.new raw_addr total_len
  .ok { info := info, used := 0, bitmaps := initBitmaps info.units }

/-- `BlockBitmapRef::get`: test bit `block_idx` of the byte array. -/
def bitGet (bm : BlockBitmap) (block_idx : Nat) : Bool :=
  (bm.bits.getD (block_idx / 8) 0) &&& (1 <<< (block_idx % 8)) ≠ 0

/-- `BlockBitmapRef::set_1`. -/
def bitSet1 (bm : BlockBitmap) (block_idx : Nat) : BlockBitmap :=
  let prev := bitGet bm block_idx
  let bits := bm.bits.set (block_idx / 8)
    ((bm.bits.getD (block_idx / 8) 0) ||| (1 <<< (block_idx % 8)))
  { bits := bits, count := if ¬ prev then bm.count + 1 else bm.count }

/-- `BlockBitmapRef::set_0` (`!mask` on `u8` is `0xff ^^^ mask`). -/
def bitSet0 (bm : BlockBitmap) (block_idx : Nat) : BlockBitmap :=
  let prev := bitGet bm block_idx
  let bits := bm.bits.set (block_idx / 8)
    ((bm.bits.getD (block_idx / 8) 0) &&& (0xff ^^^ (1 <<< (block_idx % 8))))
  { bits := bits, count := if prev then bm.count - 1 else bm.count }

/-- First index of a nonzero byte (`while self.bits[bits_idx] == 0`); the
source would index out of bounds when every byte is zero, which is
unreachable behind the `!self.empty()` assertion. -/
def firstOneByteIdx : List Nat → Nat
  | [] => 0
  | b :: rest => if b ≠ 0 then 0 else firstOneByteIdx rest + 1

/-- First set bit of a byte starting at `off`
(`while (self.bits[bits_idx] & (1 << offset)) == 0`); bounded by 8, which is
no restriction for a nonzero `u8`. -/
def firstBitOffsetGo (byte : Nat) : Nat → Nat → Nat
  | 0, _ => 8
  | fuel + 1, off =>
    if byte &&& (1 <<< off) ≠ 0 then off
    else firstBitOffsetGo byte fuel (off + 1)

def firstBitOffset (byte off : Nat) : Nat := firstBitOffsetGo byte (8 - off) off

/-- `BlockBitmapRef::first_1` (the `assert!(!self.empty())` is enforced by
the caller checking `count != 0`). -/
def BlockBitmap.first_1 (bm : BlockBitmap) : Nat :=
  let bits_idx := firstOneByteIdx bm.bits
  bits_idx * 8 + firstBitOffset (bm.bits.getD bits_idx 0) 0

/-- Level `i` of the allocator (`self.get_bits(i)` reads
`self.bitmaps[i]`). -/
def getLevel (b : BuddyBlock) (i : Nat) : BlockBitmap :=
  b.bitmaps.getD i default

/-- Write back level `i`. -/
def updateLevel (b : BuddyBlock) (i : Nat) (bm : BlockBitmap) : BuddyBlock :=
  { b with bitmaps := b.bitmaps.set i bm }

/-- The `while (UNIT_SIZE << idx) < size` loop of `bitmap_index_for_size`
(fuel `size` is always enough since `UNIT_SIZE <<< size ≥ size`). -/
def bitmapIndexLoop (size : Nat) : Nat → Nat → Nat
  | 0, idx => idx
  | fuel + 1, idx =>
    if UNIT_SIZE <<< idx < size then bitmapIndexLoop size fuel (idx + 1) else idx

/-- `bitmap_index_for_size`. -/
def bitmap_index_for_size (size : Nat) : Nat :=
  bitmapIndexLoop size size 0

/-- The inner `for below in (bitmap_idx_fit..bitmap_idx).rev()` split loop of
`BuddyBlock::alloc`: descend from `below` to `fit`, marking the right child
free at each level. -/
def splitDown : BuddyBlock → Nat → Nat → Nat → BuddyBlock
  | b, _, 0, _ => b
  | b, fit, below + 1, idx =>
    if below + 1 ≤ fit then b
    else
      let idx' := idx * 2
      let b' := updateLevel b below (bitSet1 (getLevel b below) (idx' + 1))
      splitDown b' fit below idx'

/-- The `for bitmap_idx in bitmap_idx_fit..bitmap_len` loop of
`BuddyBlock::alloc` (fuel-structural; the fuel never runs out before the
`j ≥ bitmap_len` guard because callers pass `fuel = b.bitmaps.length`). -/
def allocLoop : BuddyBlock → Nat → Nat → Nat → Nat → Option Nat × BuddyBlock
  | b, _, _, 0, _ => (none, b)
  | b, aligned_len, fit, fuel + 1, j =>
    if j ≥ b.bitmaps.length then (none, b)
    else
      let bm := getLevel b j
      if bm.count = 0 then allocLoop b aligned_len fit fuel (j + 1)
      else
        let block_idx := bm.first_1
        let b1 := updateLevel b j (bitSet0 bm block_idx)
        let b2 := splitDown b1 fit j block_idx
        let b3 := { b2 with used := b2.used + aligned_len }
        let data_addr := b3.info.raw_addr + b3.info.data_offset
        (some (data_addr + block_idx * (UNIT_SIZE <<< j)), b3)

/-- `BuddyBlock::alloc`. -/
def BuddyBlock.alloc (b : BuddyBlock) (len : Nat) : Except String (Option Nat × BuddyBlock) :=
  if len = 0 then .error "assertion failed: len != 0" else
  let aligned_len := divCeil len UNIT_SIZE * UNIT_SIZE
  let bitmap_idx_fit := bitmap_index_for_size aligned_len
  let bitmap_len := b.bitmaps.length
  if bitmap_idx_fit ≥ bitmap_len then
    -- requested memory is too large
    .ok (none, b)
  else
    .ok (allocLoop b aligned_len bitmap_idx_fit bitmap_len bitmap_idx_fit)

/-- The coalescing `loop` of `BuddyBlock::dealloc` (`bitmap_len` is read
once before the loop in the source; the structural fuel never runs out
because the loop breaks at the top level and callers pass
`fuel = bitmap_len`). -/
def coalesceLoopGo (bitmap_len : Nat) : Nat → BuddyBlock → Nat → Nat → Except String BuddyBlock
  | 0, b, _, _ => .ok b
  | fuel + 1, b, block_idx, current =>
    let bm := getLevel b current
    if bitGet bm block_idx then .error "assertion failed: !current_bitmap.get(block_idx)" else
    let bm1 := bitSet1 bm block_idx
    let b1 := updateLevel b current bm1
    let buddy_idx := block_idx ^^^ 1
    if bitGet bm1 buddy_idx then
      if current + 1 ≥ bitmap_len then .ok b1
      else
        let bm2 := bitSet0 (bitSet0 bm1 buddy_idx) block_idx
        let b2 := updateLevel b1 current bm2
        coalesceLoopGo bitmap_len fuel b2 (block_idx / 2) (current + 1)
    else .ok b1

def coalesceLoop (bitmap_len : Nat) (b : BuddyBlock) (block_idx current : Nat) :
    Except String BuddyBlock :=
  coalesceLoopGo bitmap_len bitmap_len b block_idx current

/-- `BuddyBlock::dealloc`. -/
def BuddyBlock.dealloc (b : BuddyBlock) (addr len : Nat) : Except String BuddyBlock :=
  if len = 0 then .ok b else
  let data_addr := b.info.raw_addr + b.info.data_offset
  let data_len := b.info.total_len - b.info.data_offset
  let aligned_addr := addr / UNIT_SIZE * UNIT_SIZE
  let aligned_end := divCeil (addr + len) UNIT_SIZE * UNIT_SIZE
  let aligned_len := aligned_end - aligned_addr
  if ¬ (data_addr ≤ aligned_addr ∧ aligned_addr < data_addr + data_len) then
    .error "assertion failed: dealloc start out of data range" else
  if ¬ (data_addr < aligned_end ∧ aligned_end ≤ data_addr + data_len) then
    .error "assertion failed: dealloc end out of data range" else
  let bitmap_idx_fit := bitmap_index_for_size aligned_len
  let bitmap_len := b.bitmaps.length
  if ¬ bitmap_idx_fit < bitmap_len then
    .error "assertion failed: bitmap_idx_fit < bitmap_len" else
  let block_idx := (aligned_addr - data_addr) / (UNIT_SIZE <<< bitmap_idx_fit)
  (coalesceLoop bitmap_len b block_idx bitmap_idx_fit).map
    fun b' => { b' with used := b'.used - aligned_len }

/-- Rounded request size (`div_ceil(len, UNIT_SIZE) * UNIT_SIZE`). -/
def alignedLenOf (len : Nat) : Nat := divCeil len UNIT_SIZE * UNIT_SIZE

/-- The level a request of `len` bytes targets. -/
def fitOf (len : Nat) : Nat := bitmap_index_for_size (alignedLenOf len)

/-- Base of the data region. -/
def dataAddr (b : BuddyBlock) : Nat := b.info.raw_addr + b.info.data_offset

/-- Byte length of the data region (`BuddyBlockInfo::data_len`). -/
def dataLen (b : BuddyBlock) : Nat := b.info.total_len - b.info.data_offset

/-- `construct(X, 0x200000)` followed by `alloc(1)`, at `X = 0`:
the resulting address. -/
def demoAllocOne : Except String (Option Nat) :=
  (BuddyBlock.new 0 0x200000).bind (fun b => (b.alloc 1).map Prod.fst)

/-- `construct(0, 0x200000)`, `a = alloc(0x2000)` (a level-1 block), then
`dealloc(a, 0x1000)` — a freed size selecting level 0, disagreeing with the
allocation's level 1.  Returns the allocated address and the final `used`. -/
def demoSizeMismatch : Except String (Option Nat × Nat) := do
  let b ← BuddyBlock.new 0 0x200000
  let (r, b1) ← b.alloc 0x2000
  match r with
  | some a => do
      let b2 ← b1.dealloc a 0x1000
      pure (r, b2.used)
  | none => pure (r, b1.used)

/-- The same trace, keeping the final allocator state: shows the mismatched
`dealloc` returns normally. -/
def demoSizeMismatchRaw : Except String BuddyBlock := do
  let b ← BuddyBlock.new 0 0x200000
  let (r, b1) ← b.alloc 0x2000
  match r with
  | some a => b1.dealloc a 0x1000
  | none => .error "unreachable"

/-- `construct(0, 0x3001)` (a length that is not a unit multiple) followed by
`alloc(1)`: the address together with the data-region bounds
`(data_addr, data_addr + data_len)`. -/
def demoTailBlock : Except String (Option Nat × Nat × Nat) := do
  let b ← BuddyBlock.new 0 0x3001
  let (r, b1) ← b.alloc 1
  pure (r, dataAddr b1, dataAddr b1 + dataLen b1)

/-- Cached count abstraction: the number of set bits in the (padded) bit
positions of a level. -/
def countFree (bm : BlockBitmap) : Nat :=
  ∑ j ∈ Finset.range (8 * bm.bits.length), if bitGet bm j then 1 else 0

/-- Bytes of a level stay below 256 (they are `u8` in the source). -/
def bytesOk (bm : BlockBitmap) : Prop := ∀ x ∈ bm.bits, x < 256

/-- Block `j` of level `i` is marked free. -/
def freeBit (b : BuddyBlock) (i j : Nat) : Bool := bitGet (getLevel b i) j

/-- How many free blocks cover unit `u` of the data region. -/
def freeCover (b : BuddyBlock) (u : Nat) : Nat :=
  ∑ i ∈ Finset.range b.info.levels, if freeBit b i (u >>> i) then 1 else 0

/-- How many outstanding allocations (level, index) cover unit `u`. -/
def allocCover (O : List (Nat × Nat)) (u : Nat) : Nat :=
  (O.map fun p => if u >>> p.1 = p.2 then 1 else 0).sum

/-- Total cover of unit `u` by free blocks and outstanding allocations. -/
def coverCount (b : BuddyBlock) (O : List (Nat × Nat)) (u : Nat) : Nat :=
  freeCover b u + allocCover O u

/-- Well-formedness of an allocator state together with the multiset `O` of
outstanding allocated blocks `(level, index)`. -/
structure BuddyWF (b : BuddyBlock) (O : List (Nat × Nat)) : Prop where
  levels_pos : 1 ≤ b.info.levels
  len_eq : b.bitmaps.length = b.info.levels
  top_one : b.info.units >>> (b.info.levels - 1) = 1
  bits_len : ∀ i < b.info.levels,
    (getLevel b i).bits.length = (b.info.units >>> i - 1) / 8 + 1
  bytes : ∀ i < b.info.levels, bytesOk (getLevel b i)
  bounds : ∀ i j, freeBit b i j = true → i < b.info.levels ∧ j < b.info.units >>> i
  counts : ∀ i < b.info.levels, (getLevel b i).count = countFree (getLevel b i)
  cover : ∀ u < b.info.units, coverCount b O u = 1
  obounds : ∀ p ∈ O, p.1 < b.info.levels ∧ p.2 < b.info.units >>> p.1
  nosib : ∀ i k, ¬(freeBit b i (2 * k) = true ∧ freeBit b i (2 * k + 1) = true)

/-- Well-formedness with a one-block hole: as `BuddyWF`, except that the
block `(lv, idx)` is covered by nothing — the intermediate states of
`alloc`'s split loop and `dealloc`'s coalesce loop. -/
structure BuddyWFHole (b : BuddyBlock) (O : List (Nat × Nat)) (lv idx : Nat) : Prop where
  levels_pos : 1 ≤ b.info.levels
  len_eq : b.bitmaps.length = b.info.levels
  top_one : b.info.units >>> (b.info.levels - 1) = 1
  bits_len : ∀ i < b.info.levels,
    (getLevel b i).bits.length = (b.info.units >>> i - 1) / 8 + 1
  bytes : ∀ i < b.info.levels, bytesOk (getLevel b i)
  bounds : ∀ i j, freeBit b i j = true → i < b.info.levels ∧ j < b.info.units >>> i
  counts : ∀ i < b.info.levels, (getLevel b i).count = countFree (getLevel b i)
  coverH : ∀ u < b.info.units,
    coverCount b O u + (if u >>> lv = idx then 1 else 0) = 1
  obounds : ∀ p ∈ O, p.1 < b.info.levels ∧ p.2 < b.info.units >>> p.1
  nosib : ∀ i k, ¬(freeBit b i (2 * k) = true ∧ freeBit b i (2 * k + 1) = true)
  lv_lt : lv < b.info.levels
  idx_lt : idx < b.info.units >>> lv

/-- A level of the allocator has some free block marked. -/
def levelHasFree (b : BuddyBlock) (j : Nat) : Bool :=
  (List.range (8 * (getLevel b j).bits.length)).any (fun idx => freeBit b j idx)

/-- Number of levels produced for `block_count` units (`log2` plus one). -/
def nLevels (bc : Nat) : Nat :=
  if bc ≤ 1 then 1 else nLevels (bc / 2) + 1
termination_by bc
decreasing_by exact Nat.div_lt_self (by omega) (by omega)

/-- The canonical `(level, block index)` of an outstanding allocation
`(address, length)`. -/
def entryOf (b : BuddyBlock) (p : Nat × Nat) : Nat × Nat :=
  (fitOf p.2, (p.1 - dataAddr b) / (UNIT_SIZE <<< fitOf p.2))

/-- States reachable from a successful unit-aligned `construct` by `alloc`
calls and by `dealloc` of the address and length of an outstanding
allocation; `A` lists the outstanding `(address, length)` pairs. -/
inductive Reach : BuddyBlock → List (Nat × Nat) → Prop where
  | init (raw len : Nat) (b : BuddyBlock) (halign : raw % UNIT_SIZE = 0)
      (h : BuddyBlock.new raw len = .ok b) : Reach b []
  | alloc_some (b b' : BuddyBlock) (A : List (Nat × Nat)) (len addr : Nat)
      (hr : Reach b A) (h : b.alloc len = .ok (some addr, b')) :
      Reach b' ((addr, len) :: A)
  | alloc_none (b b' : BuddyBlock) (A : List (Nat × Nat)) (len : Nat)
      (hr : Reach b A) (h : b.alloc len = .ok (none, b')) : Reach b' A
  | dealloc (b b' : BuddyBlock) (A : List (Nat × Nat)) (p : Nat × Nat)
      (hr : Reach b A) (hp : p ∈ A) (h : b.dealloc p.1 p.2 = .ok b') :
      Reach b' (A.erase p)

instance : Inhabited BuddyBlockInfo := ⟨⟨0, 0, 0, 0, 0, 0⟩⟩

instance : Inhabited BuddyBlock := ⟨⟨default, 0, []⟩⟩

/-- The state `construct(raw, len)` produces (the default state when
construction fails). -/
def newOrDefault (raw len : Nat) : BuddyBlock :=
  match BuddyBlock.new raw len with
  | .ok b => b
  | .error _ => default

/-- The result pair of an `alloc` call (identity on failure). -/
def allocOrDefault (b : BuddyBlock) (len : Nat) : Option Nat × BuddyBlock :=
  match b.alloc len with
  | .ok r => r
  | .error _ => (none, b)

end Buddy

end Rigoros

namespace Rigoros

namespace Slab

def PAGE_SIZE : Nat := 4096

def REDZONE_SIZE : Nat := 16

def OBJECT_MAGIC : Nat := 0x6b5c

def REDZONE_FILL : Nat := 0xf1

def UNUSED_FILL : Nat := 0xe2

/-- `align_ceil` on `u16` (`!mask` on `u16` is `0xffff ^^^ mask`). -/
def align_ceil (x align : Nat) : Nat :=
  (x + (align - 1)) &&& (0xffff ^^^ (align - 1))

/-- `u16::is_power_of_two`. -/
def isPow2 (n : Nat) : Bool := n ≠ 0 && n &&& (n - 1) == 0

/-- `ObjectHeader::align` (`align_of::<ObjectHeader>() == 2`). -/
def objectAlign (payload_align : Nat) : Nat := max payload_align 2

/-- `PageHeader` (pointers become addresses, `0` is null). -/
structure PageHeader where
  prev : Nat
  next : Nat
  free : Nat
  count : Nat
deriving DecidableEq, Repr

instance : Inhabited PageHeader := ⟨⟨0, 0, 0, 0⟩⟩

/-- `ObjectHeader`. -/
structure ObjectHeader where
  magic : Nat
  next : Nat
deriving DecidableEq, Repr

instance : Inhabited ObjectHeader := ⟨⟨0, 0⟩⟩

/-- The sizing fields of `SlabAllocator`. -/
structure SlabConfig where
  payload_size : Nat
  payload_align : Nat
  front_size : Nat
  object_size : Nat
deriving DecidableEq, Repr

/-- The model address of the embedded dummy header `avail_start` (any
non-null address that is never a page base). -/
def AVAIL : Nat := 8

/-- The mutable state of a `SlabAllocator` together with its page provider:
page headers and object headers are read through their typed addresses, raw
bytes (redzones, payload) through `mem`; `provider` lists the page
addresses the `PageAllocator` will hand out and `freed` those given back. -/
structure SlabState where
  cfg : SlabConfig
  availHdr : PageHeader
  pageHdr : Nat → PageHeader
  objHdr : Nat → ObjectHeader
  mem : Nat → Nat
  provider : List Nat
  freed : List Nat

/-- Read a `PageHeader` at address `a` (the dummy lives at `AVAIL`). -/
def hdrOf (s : SlabState) (a : Nat) : PageHeader :=
  if a = AVAIL then s.availHdr else s.pageHdr a

/-- Write a `PageHeader` at address `a`. -/
def setHdr (s : SlabState) (a : Nat) (h : PageHeader) : SlabState :=
  if a = AVAIL then { s with availHdr := h }
  else { s with pageHdr := fun x => if x = a then h else s.pageHdr x }

def setNext (s : SlabState) (a v : Nat) : SlabState :=
  setHdr s a { hdrOf s a with next := v }

def setPrev (s : SlabState) (a v : Nat) : SlabState :=
  setHdr s a { hdrOf s a with prev := v }

def setFree (s : SlabState) (a v : Nat) : SlabState :=
  setHdr s a { hdrOf s a with free := v }

def setCount (s : SlabState) (a v : Nat) : SlabState :=
  setHdr s a { hdrOf s a with count := v }

def setObj (s : SlabState) (a : Nat) (o : ObjectHeader) : SlabState :=
  { s with objHdr := fun x => if x = a then o else s.objHdr x }

def setMagic (s : SlabState) (a v : Nat) : SlabState :=
  setObj s a { s.objHdr a with magic := v }

def setObjNext (s : SlabState) (a v : Nat) : SlabState :=
  setObj s a { s.objHdr a with next := v }

def setMem (s : SlabState) (a v : Nat) : SlabState :=
  { s with mem := fun x => if x = a then v else s.mem x }

/-- `write_bytes(dst, val, count)`. -/
def writeBytes (s : SlabState) (dst v : Nat) : Nat → SlabState
  | 0 => s
  | n + 1 => writeBytes (setMem s dst v) (dst + 1) v n

/-- `page_list_is_tail`. -/
def page_list_is_tail (s : SlabState) (page : Nat) : Bool :=
  (hdrOf s page).next = 0

/-- `page_list_is_singleton`. -/
def page_list_is_singleton (s : SlabState) (page : Nat) : Bool :=
  (hdrOf s page).next = 0 || (hdrOf s page).prev = 0

/-- `page_list_push_tail`. -/
def page_list_push_tail (s : SlabState) (page new_page : Nat) : SlabState :=
  let s1 := setNext s page new_page
  setPrev s1 new_page page

/-- `page_list_pop_next`. -/
def page_list_pop_next (s : SlabState) (page : Nat) : Nat × SlabState :=
  let n := (hdrOf s page).next
  if n ≠ 0 then
    let s1 := setNext s page (hdrOf s n).next
    let s2 := if (hdrOf s1 page).next ≠ 0 then
        setPrev s1 (hdrOf s1 page).next page
      else s1
    let s3 := setPrev s2 n 0
    let s4 := setNext s3 n 0
    (n, s4)
  else (n, s)

/-- `page_list_push_next`. -/
def page_list_push_next (s : SlabState) (page new_page : Nat) : SlabState :=
  let s1 := setNext s new_page (hdrOf s page).next
  let s2 := setPrev s1 new_page page
  let s3 := if (hdrOf s2 page).next ≠ 0 then
      setPrev s2 (hdrOf s2 page).next new_page
    else s2
  setNext s3 page new_page

/-- `page_list_remove`. -/
def page_list_remove (s : SlabState) (page : Nat) : SlabState :=
  let n := (hdrOf s page).next
  let p := (hdrOf s page).prev
  let s1 := if n ≠ 0 then setPrev s n p else s
  let s2 := if p ≠ 0 then setNext s1 p n else s1
  let s3 := setNext s2 page 0
  setPrev s3 page 0

/-- `SlabAllocator::check_redzone`. -/
def check_redzone (s : SlabState) (addr : Nat) : Bool :=
  let right_offset := s.cfg.front_size + s.cfg.payload_size
  ((List.range REDZONE_SIZE).all fun i => s.mem (addr + 4 + i) == REDZONE_FILL) &&
  ((List.range REDZONE_SIZE).all fun i => s.mem (addr + right_offset + i) == REDZONE_FILL)

/-- `SlabAllocator::check_unused`: only the FIRST payload byte is checked. -/
def check_unused (s : SlabState) (addr : Nat) : Bool :=
  s.mem (addr + s.cfg.front_size) == UNUSED_FILL

/-- `SlabAllocator::page_offset` (`size_of::<PageHeader>() == 24`). -/
def page_offset (cfg : SlabConfig) : Nat :=
  align_ceil 24 (objectAlign cfg.payload_align)

/-- The slot-formatting `loop` of `alloc_page` (fuel-structural; the loop
runs at most `PAGE_SIZE / object_size + 1` times, so `PAGE_SIZE` fuel never
runs out on states produced by `SlabAllocator::new`). -/
def formatSlots (cfg : SlabConfig) (addr : Nat) : Nat → SlabState → Nat → SlabState
  | 0, s, _ => s
  | fuel + 1, s, offset =>
    let obj_addr := addr + offset
    let s1 := setMagic s obj_addr 0
    let s2 := writeBytes s1 (obj_addr + 4) REDZONE_FILL REDZONE_SIZE
    let s3 := setMem s2 (obj_addr + cfg.front_size) UNUSED_FILL
    let s4 := writeBytes s3 (obj_addr + cfg.front_size + cfg.payload_size)
      REDZONE_FILL REDZONE_SIZE
    let offset' := offset + cfg.object_size
    if offset' + cfg.object_size ≤ PAGE_SIZE then
      let s5 := setObjNext s4 obj_addr offset'
      formatSlots cfg addr fuel s5 offset'
    else
      setObjNext s4 obj_addr 0

/-- `SlabAllocator::alloc_page`. -/
def alloc_page (s : SlabState) : Option (Nat × SlabState) :=
  let offset := page_offset s.cfg
  match s.provider with
  | [] => none
  | addr :: rest =>
    let s0 := { s with provider := rest }
    let s1 := setHdr s0 addr { prev := 0, next := 0, free := offset, count := 0 }
    let s2 := formatSlots s1.cfg addr PAGE_SIZE s1 offset
    some (addr, s2)

/-- `SlabAllocator::kick_full_page`. -/
def kick_full_page (s : SlabState) : Except String SlabState :=
  let (kicked, s1) := page_list_pop_next s AVAIL
  if kicked = 0 then .error "slab is poisoned" else .ok s1

/-- `SlabAllocator::alloc_from_free`. -/
def alloc_from_free (s : SlabState) : Except String (Nat × SlabState) :=
  let page := (hdrOf s AVAIL).next
  if (hdrOf s page).free = 0 then .error "slab is poisoned" else
  let addr := page + (hdrOf s page).free
  if (s.objHdr addr).magic ≠ 0 then .error "slab is poisoned" else
  if ¬ check_redzone s addr then .error "slab is poisoned" else
  if ¬ check_unused s addr then
    .error "dangling pointer exists or slab is poisoned" else
  let s1 := setMagic s addr OBJECT_MAGIC
  let s2 := setCount s1 page ((hdrOf s1 page).count + 1)
  if (s2.objHdr addr).next ≠ 0 then
    let s3 := setFree s2 page ((s2.objHdr addr).next)
    let s4 := setObjNext s3 addr 0
    .ok (addr + s.cfg.front_size, s4)
  else
    let s3 := setFree s2 page 0
    (kick_full_page s3).map fun s4 => (addr + s.cfg.front_size, s4)

/-- `SlabAllocator::new`: the sizing computation and its assertions; the
returned state has an empty page list and the given provider. -/
def SlabAllocator.new (payload_size payload_align : Nat) (provider : List Nat) :
    Except String SlabState :=
  if ¬ isPow2 payload_align then .error "invalid slab alignment" else
  if ¬ (payload_align ≤ PAGE_SIZE / 4) then .error "invalid slab alignment" else
  if ¬ (payload_size < PAGE_SIZE / 2) then .error "invalid slab size" else
  if ¬ (payload_size > 0) then .error "invalid slab size" else
  let object_align := objectAlign payload_align
  let front_size := align_ceil (4 + REDZONE_SIZE) object_align
  let object_size := align_ceil (front_size + payload_size + REDZONE_SIZE) object_align
  if ¬ (object_size ≤ PAGE_SIZE / 2) then .error "invalid slab size" else
  .ok { cfg := { payload_size := payload_size, payload_align := payload_align,
                 front_size := front_size, object_size := object_size }
        availHdr := { prev := 0, next := 0, free := 0, count := 0 }
        pageHdr := fun _ => default
        objHdr := fun _ => default
        mem := fun _ => 0
        provider := provider
        freed := [] }

/-- `SlabAllocator::alloc`. -/
def SlabAllocator.alloc (s : SlabState) : Except String (Option Nat × SlabState) :=
  if page_list_is_tail s AVAIL then
    match alloc_page s with
    | none => .ok (none, s)
    | some (new_page, s1) =>
      let s2 := page_list_push_tail s1 AVAIL new_page
      (alloc_from_free s2).map fun r => (some r.1, r.2)
  else
    (alloc_from_free s).map fun r => (some r.1, r.2)

/-- `page_from_object` (`object & !(PAGE_SIZE - 1)`). -/
def page_from_object (addr : Nat) : Nat := addr - addr % PAGE_SIZE

/-- `SlabAllocator::dealloc_page`: unlink and give the page back. -/
def dealloc_page (s : SlabState) (page : Nat) : SlabState :=
  let s1 := page_list_remove s page
  { s1 with freed := page :: s1.freed }

/-- `SlabAllocator::insert_avail_page`. -/
def insert_avail_page (s : SlabState) (page : Nat) : Except String SlabState :=
  if ¬ page_list_is_singleton s page then .error "slab is poisoned"
  else .ok (page_list_push_next s AVAIL page)

/-- `SlabAllocator::dealloc`. -/
def SlabAllocator.dealloc (s : SlabState) (ptr : Nat) : Except String SlabState :=
  let payload_addr := ptr
  let addr := payload_addr - s.cfg.front_size
  if ¬ ((s.objHdr addr).magic = OBJECT_MAGIC ∧ (s.objHdr addr).next = 0) then
    .error "invalid dealloc() or slab is poisoned" else
  if ¬ check_redzone s addr then .error "invalid dealloc() or slab is poisoned" else
  let s1 := setMem s payload_addr UNUSED_FILL
  let page := page_from_object addr
  let s2 := setCount s1 page ((hdrOf s1 page).count - 1)
  let s3 := setMagic s2 addr 0
  let s4 := if (hdrOf s3 page).free ≠ 0 then
      setObjNext s3 addr ((hdrOf s3 page).free)
    else s3
  let s5 := setFree s4 page (addr - page)
  if (hdrOf s5 page).count = 0 then .ok (dealloc_page s5 page)
  else if (hdrOf s5 AVAIL).next ≠ page then insert_avail_page s5 page
  else .ok s5

instance : Inhabited SlabState :=
  ⟨⟨⟨0, 0, 0, 0⟩, default, fun _ => default, fun _ => default, fun _ => 0, [], []⟩⟩

/-- The state `SlabAllocator::new(ps, pa)` with provider pages produces
(default when construction panics). -/
def newSlabOrDefault (ps pa : Nat) (provider : List Nat) : SlabState :=
  match SlabAllocator.new ps pa provider with
  | .ok s => s
  | .error _ => default

/-- One trace operation: an `alloc`, a `dealloc(ptr)`, or a byte write by
the user into memory it owns. -/
inductive SlabOp where
  | opAlloc : SlabOp
  | opDealloc (ptr : Nat) : SlabOp
  | opPoke (a v : Nat) : SlabOp

/-- Run a trace, collecting each `alloc` result. -/
def runOps : SlabState → List SlabOp → Except String (List (Option Nat) × SlabState)
  | s, [] => .ok ([], s)
  | s, SlabOp.opAlloc :: ops =>
    (SlabAllocator.alloc s).bind fun r =>
      (runOps r.2 ops).map fun t => (r.1 :: t.1, t.2)
  | s, SlabOp.opDealloc p :: ops => (SlabAllocator.dealloc s p).bind fun s' => runOps s' ops
  | s, SlabOp.opPoke a v :: ops => runOps (setMem s a v) ops

/-- The state after one allocation on a fresh 1260-byte/align-8 slab. -/
def c3S : SlabState :=
  match runOps (newSlabOrDefault 1260 8 [0x10000]) [SlabOp.opAlloc] with
  | .ok r => r.2
  | .error _ => default

/-- The state `alloc_from_free` then produces from `c3S`. -/
def c3S' : SlabState :=
  match alloc_from_free c3S with
  | .ok r => r.2
  | .error _ => default

/-- The state `dealloc 0x10030` then produces from `c3S`. -/
def c4S' : SlabState :=
  match SlabAllocator.dealloc c3S 0x10030 with
  | .ok s => s
  | .error _ => default

/-- The state after one allocation on a fresh 1260-byte/align-4 slab
(`front_size = 20`, no padding before the payload). -/
def c5S : SlabState :=
  match runOps (newSlabOrDefault 1260 4 [0x10000]) [SlabOp.opAlloc] with
  | .ok r => r.2
  | .error _ => default

end Slab

end Rigoros

namespace Rigoros

namespace Buddy

theorem firstBitOffset_eq (byte off : Nat) :
    firstBitOffset byte off =
      if off ≥ 8 then 8
      else if byte &&& (1 <<< off) ≠ 0 then off
      else firstBitOffset byte (off + 1) := by
  unfold firstBitOffset
  by_cases h : off ≥ 8
  · have h0 : 8 - off = 0 := by omega
    rw [h0, if_pos h]
    rfl
  · have h1 : 8 - off = (8 - (off + 1)) + 1 := by omega
    rw [h1, if_neg h]
    rfl

theorem splitDown_stop (b : BuddyBlock) (fit below idx : Nat) (h : below ≤ fit) :
    splitDown b fit below idx = b := by
  cases below with
  | zero => rfl
  | succ n =>
    simp only [splitDown]
    rw [if_pos h]

theorem splitDown_step (b : BuddyBlock) (fit below idx : Nat) (h : fit < below) :
    splitDown b fit below idx =
      splitDown (updateLevel b (below - 1) (bitSet1 (getLevel b (below - 1)) (idx * 2 + 1)))
        fit (below - 1) (idx * 2) := by
  cases below with
  | zero => omega
  | succ n =>
    simp only [splitDown, Nat.add_sub_cancel]
    rw [if_neg (by omega)]

theorem allocLoop_stop (b : BuddyBlock) (al fit fuel j : Nat) (h : j ≥ b.bitmaps.length) :
    allocLoop b al fit fuel j = (none, b) := by
  cases fuel with
  | zero => rfl
  | succ n =>
    simp only [allocLoop]
    rw [if_pos h]

theorem allocLoop_skip (b : BuddyBlock) (al fit fuel j : Nat) (h : j < b.bitmaps.length)
    (hc : (getLevel b j).count = 0) :
    allocLoop b al fit (fuel + 1) j = allocLoop b al fit fuel (j + 1) := by
  simp only [allocLoop]
  rw [if_neg (Nat.not_le.mpr h), if_pos hc]

theorem updateLevel_info (b : BuddyBlock) (i : Nat) (bm : BlockBitmap) :
    (updateLevel b i bm).info = b.info := rfl

theorem updateLevel_used (b : BuddyBlock) (i : Nat) (bm : BlockBitmap) :
    (updateLevel b i bm).used = b.used := rfl

theorem length_updateLevel (b : BuddyBlock) (i : Nat) (bm : BlockBitmap) :
    (updateLevel b i bm).bitmaps.length = b.bitmaps.length := List.length_set _ _ _

theorem splitDown_info (below : Nat) : ∀ (b : BuddyBlock) (fit idx : Nat),
    (splitDown b fit below idx).info = b.info := by
  induction below with
  | zero =>
    intro b fit idx
    rw [splitDown_stop _ _ _ _ (Nat.zero_le _)]
  | succ n ih =>
    intro b fit idx
    by_cases h : n + 1 ≤ fit
    · rw [splitDown_stop _ _ _ _ h]
    · rw [splitDown_step _ _ _ _ (by omega)]
      simp only [Nat.add_sub_cancel]
      rw [ih _ fit (idx * 2), updateLevel_info]

theorem splitDown_used (below : Nat) : ∀ (b : BuddyBlock) (fit idx : Nat),
    (splitDown b fit below idx).used = b.used := by
  induction below with
  | zero =>
    intro b fit idx
    rw [splitDown_stop _ _ _ _ (Nat.zero_le _)]
  | succ n ih =>
    intro b fit idx
    by_cases h : n + 1 ≤ fit
    · rw [splitDown_stop _ _ _ _ h]
    · rw [splitDown_step _ _ _ _ (by omega)]
      simp only [Nat.add_sub_cancel]
      rw [ih _ fit (idx * 2), updateLevel_used]

theorem splitDown_length (below : Nat) : ∀ (b : BuddyBlock) (fit idx : Nat),
    (splitDown b fit below idx).bitmaps.length = b.bitmaps.length := by
  induction below with
  | zero =>
    intro b fit idx
    rw [splitDown_stop _ _ _ _ (Nat.zero_le _)]
  | succ n ih =>
    intro b fit idx
    by_cases h : n + 1 ≤ fit
    · rw [splitDown_stop _ _ _ _ h]
    · rw [splitDown_step _ _ _ _ (by omega)]
      simp only [Nat.add_sub_cancel]
      rw [ih _ fit (idx * 2), length_updateLevel]

theorem allocLoop_hit (b : BuddyBlock) (al fit fuel j : Nat) (h : j < b.bitmaps.length)
    (hc : (getLevel b j).count ≠ 0) :
    allocLoop b al fit (fuel + 1) j =
      (some (b.info.raw_addr + b.info.data_offset +
          (getLevel b j).first_1 * (UNIT_SIZE <<< j)),
       { splitDown (updateLevel b j (bitSet0 (getLevel b j) (getLevel b j).first_1)) fit j
           (getLevel b j).first_1 with
         used := (splitDown (updateLevel b j (bitSet0 (getLevel b j) (getLevel b j).first_1))
           fit j (getLevel b j).first_1).used + al }) := by
  simp only [allocLoop]
  rw [if_neg (Nat.not_le.mpr h), if_neg hc]
  rw [splitDown_info, updateLevel_info]

theorem coalesceLoopGo_assert (L : Nat) (fuel : Nat) (b : BuddyBlock) (bi cur : Nat)
    (h : bitGet (getLevel b cur) bi = true) :
    ∃ msg, coalesceLoopGo L (fuel + 1) b bi cur = .error msg := by
  simp only [coalesceLoopGo]
  rw [if_pos h]
  exact ⟨_, rfl⟩

theorem coalesceLoopGo_done (L : Nat) (fuel : Nat) (b : BuddyBlock) (bi cur : Nat)
    (h : bitGet (getLevel b cur) bi = false)
    (hb : bitGet (bitSet1 (getLevel b cur) bi) (bi ^^^ 1) = false) :
    coalesceLoopGo L (fuel + 1) b bi cur =
      .ok (updateLevel b cur (bitSet1 (getLevel b cur) bi)) := by
  simp only [coalesceLoopGo]
  rw [if_neg (by simp [h]), if_neg (by simp [hb])]

theorem coalesceLoopGo_top (L : Nat) (fuel : Nat) (b : BuddyBlock) (bi cur : Nat)
    (h : bitGet (getLevel b cur) bi = false)
    (hb : bitGet (bitSet1 (getLevel b cur) bi) (bi ^^^ 1) = true)
    (htop : cur + 1 ≥ L) :
    coalesceLoopGo L (fuel + 1) b bi cur =
      .ok (updateLevel b cur (bitSet1 (getLevel b cur) bi)) := by
  simp only [coalesceLoopGo]
  rw [if_neg (by simp [h]), if_pos hb, if_pos htop]

theorem coalesceLoopGo_merge (L : Nat) (fuel : Nat) (b : BuddyBlock) (bi cur : Nat)
    (h : bitGet (getLevel b cur) bi = false)
    (hb : bitGet (bitSet1 (getLevel b cur) bi) (bi ^^^ 1) = true)
    (htop : cur + 1 < L) :
    coalesceLoopGo L (fuel + 1) b bi cur =
      coalesceLoopGo L fuel
        (updateLevel (updateLevel b cur (bitSet1 (getLevel b cur) bi)) cur
          (bitSet0 (bitSet0 (bitSet1 (getLevel b cur) bi) (bi ^^^ 1)) bi))
        (bi / 2) (cur + 1) := by
  simp only [coalesceLoopGo]
  rw [if_neg (by simp [h]), if_pos hb, if_neg (by omega)]

theorem bitGet_eq_testBit (bm : BlockBitmap) (j : Nat) :
    bitGet bm j = (bm.bits.getD (j / 8) 0).testBit (j % 8) := by
  unfold bitGet
  rw [Nat.one_shiftLeft, Nat.and_two_pow]
  rcases h : (bm.bits.getD (j / 8) 0).testBit (j % 8) <;> simp [h]

theorem getD_set_self (l : List Nat) (i v d : Nat) (h : i < l.length) :
    (l.set i v).getD i d = v := by
  rw [List.getD_eq_getElem?_getD]
  simp [List.getElem?_set, h]

theorem getD_set_ne (l : List Nat) (i k v d : Nat) (h : i ≠ k) :
    (l.set i v).getD k d = l.getD k d := by
  rw [List.getD_eq_getElem?_getD, List.getD_eq_getElem?_getD]
  simp [List.getElem?_set, h]

theorem div_mod_eq_iff_eq {j k m : Nat} (_hm : 0 < m) :
    (j / m = k / m ∧ j % m = k % m) ↔ j = k := by
  constructor
  · rintro ⟨h1, h2⟩
    calc j = m * (j / m) + j % m := (Nat.div_add_mod j m).symm
    _ = m * (k / m) + k % m := by rw [h1, h2]
    _ = k := Nat.div_add_mod k m
  · rintro rfl; exact ⟨rfl, rfl⟩

theorem bitGet_bitSet1 (bm : BlockBitmap) (k j : Nat) (hk : k / 8 < bm.bits.length) :
    bitGet (bitSet1 bm k) j = (decide (j = k) || bitGet bm j) := by
  rcases eq_or_ne (j / 8) (k / 8) with hdiv | hdiv
  · rw [bitGet_eq_testBit, bitGet_eq_testBit]
    show ((bm.bits.set (k / 8) _).getD (j / 8) 0).testBit (j % 8) = _
    rw [hdiv, getD_set_self _ _ _ _ hk, Nat.one_shiftLeft, Nat.testBit_or]
    rcases eq_or_ne (j % 8) (k % 8) with hmod | hmod
    · have hjk : j = k := (div_mod_eq_iff_eq (by omega)).1 ⟨hdiv, hmod⟩
      simp [hjk, hmod, Nat.testBit_two_pow_self]
    · have hjk : j ≠ k := by
        intro h; exact hmod (by rw [h])
      simp [hjk, Nat.testBit_two_pow_of_ne (Ne.symm hmod)]
  · have hjk : j ≠ k := by
      intro h; exact hdiv (by rw [h])
    rw [bitGet_eq_testBit, bitGet_eq_testBit]
    show ((bm.bits.set (k / 8) _).getD (j / 8) 0).testBit (j % 8) = _
    rw [getD_set_ne _ _ _ _ _ (Ne.symm hdiv)]
    simp [hjk]

theorem bitGet_bitSet0 (bm : BlockBitmap) (k j : Nat) (hk : k / 8 < bm.bits.length) :
    bitGet (bitSet0 bm k) j = (!decide (j = k) && bitGet bm j) := by
  rcases eq_or_ne (j / 8) (k / 8) with hdiv | hdiv
  · rw [bitGet_eq_testBit, bitGet_eq_testBit]
    show ((bm.bits.set (k / 8) _).getD (j / 8) 0).testBit (j % 8) = _
    rw [hdiv, getD_set_self _ _ _ _ hk, Nat.one_shiftLeft, Nat.testBit_and]
    have h255 : (0xff : Nat) = 2 ^ 8 - 1 := by norm_num
    rw [h255, Nat.testBit_xor, Nat.testBit_two_pow_sub_one]
    have hlt : j % 8 < 8 := Nat.mod_lt _ (by omega)
    rcases eq_or_ne (j % 8) (k % 8) with hmod | hmod
    · have hjk : j = k := (div_mod_eq_iff_eq (by omega)).1 ⟨hdiv, hmod⟩
      have h8 : k % 8 < 8 := Nat.mod_lt _ (by omega)
      simp [hjk, hmod, Nat.testBit_two_pow_self, h8]
    · have hjk : j ≠ k := by
        intro h; exact hmod (by rw [h])
      simp [hjk, Nat.testBit_two_pow_of_ne (Ne.symm hmod), hlt]
  · have hjk : j ≠ k := by
      intro h; exact hdiv (by rw [h])
    rw [bitGet_eq_testBit, bitGet_eq_testBit]
    show ((bm.bits.set (k / 8) _).getD (j / 8) 0).testBit (j % 8) = _
    rw [getD_set_ne _ _ _ _ _ (Ne.symm hdiv)]
    simp [hjk]

theorem length_bitSet1 (bm : BlockBitmap) (k : Nat) :
    (bitSet1 bm k).bits.length = bm.bits.length := List.length_set _ _ _

theorem length_bitSet0 (bm : BlockBitmap) (k : Nat) :
    (bitSet0 bm k).bits.length = bm.bits.length := List.length_set _ _ _

theorem count_bitSet1 (bm : BlockBitmap) (k : Nat) :
    (bitSet1 bm k).count = if bitGet bm k then bm.count else bm.count + 1 := by
  unfold bitSet1
  rcases h : bitGet bm k <;> simp [h]

theorem count_bitSet0 (bm : BlockBitmap) (k : Nat) :
    (bitSet0 bm k).count = if bitGet bm k then bm.count - 1 else bm.count := by
  unfold bitSet0
  rcases h : bitGet bm k <;> simp [h]

theorem countFree_congr (bm bm' : BlockBitmap)
    (hlen : bm'.bits.length = bm.bits.length)
    (hget : ∀ j, bitGet bm' j = bitGet bm j) :
    countFree bm' = countFree bm := by
  unfold countFree
  rw [hlen]
  exact Finset.sum_congr rfl (fun j _ => by rw [hget])

theorem countFree_bitSet1 (bm : BlockBitmap) (k : Nat) (hk : k / 8 < bm.bits.length) :
    countFree (bitSet1 bm k) =
      if bitGet bm k then countFree bm else countFree bm + 1 := by
  have hkmem : k ∈ Finset.range (8 * bm.bits.length) := by
    simp only [Finset.mem_range]
    omega
  have hsplit : ∀ bm2 : BlockBitmap, bm2.bits.length = bm.bits.length →
      countFree bm2 = (∑ j ∈ (Finset.range (8 * bm.bits.length)).erase k,
        if bitGet bm2 j then 1 else 0) + (if bitGet bm2 k then 1 else 0) := by
    intro bm2 hl
    unfold countFree
    rw [hl, Finset.sum_erase_add _ _ hkmem]
  rw [hsplit (bitSet1 bm k) (length_bitSet1 bm k), hsplit bm rfl]
  have herase : ∀ j ∈ (Finset.range (8 * bm.bits.length)).erase k,
      (if bitGet (bitSet1 bm k) j then (1:Nat) else 0) = if bitGet bm j then 1 else 0 := by
    intro j hj
    have hne : j ≠ k := (Finset.mem_erase.1 hj).1
    rw [bitGet_bitSet1 bm k j hk]
    simp [hne]
  rw [Finset.sum_congr rfl herase]
  have hself : bitGet (bitSet1 bm k) k = true := by
    rw [bitGet_bitSet1 bm k k hk]; simp
  rcases h : bitGet bm k <;> simp [h, hself]

theorem countFree_bitSet0 (bm : BlockBitmap) (k : Nat) (hk : k / 8 < bm.bits.length) :
    countFree (bitSet0 bm k) + (if bitGet bm k then 1 else 0) = countFree bm := by
  have hkmem : k ∈ Finset.range (8 * bm.bits.length) := by
    simp only [Finset.mem_range]
    omega
  have hsplit : ∀ bm2 : BlockBitmap, bm2.bits.length = bm.bits.length →
      countFree bm2 = (∑ j ∈ (Finset.range (8 * bm.bits.length)).erase k,
        if bitGet bm2 j then 1 else 0) + (if bitGet bm2 k then 1 else 0) := by
    intro bm2 hl
    unfold countFree
    rw [hl, Finset.sum_erase_add _ _ hkmem]
  rw [hsplit (bitSet0 bm k) (length_bitSet0 bm k), hsplit bm rfl]
  have herase : ∀ j ∈ (Finset.range (8 * bm.bits.length)).erase k,
      (if bitGet (bitSet0 bm k) j then (1:Nat) else 0) = if bitGet bm j then 1 else 0 := by
    intro j hj
    have hne : j ≠ k := (Finset.mem_erase.1 hj).1
    rw [bitGet_bitSet0 bm k j hk]
    simp [hne]
  rw [Finset.sum_congr rfl herase]
  have hself : bitGet (bitSet0 bm k) k = false := by
    rw [bitGet_bitSet0 bm k k hk]; simp
  rcases h : bitGet bm k <;> simp [h, hself]

theorem bytesOk_bitSet1 (bm : BlockBitmap) (k : Nat) (h : bytesOk bm) :
    bytesOk (bitSet1 bm k) := by
  intro x hx
  rcases List.mem_or_eq_of_mem_set hx with hx' | rfl
  · exact h x hx'
  · have h1 : bm.bits.getD (k / 8) 0 < 256 := by
      rcases Nat.lt_or_ge (k / 8) bm.bits.length with hlt | hge
      · rw [List.getD_eq_getElem?_getD]
        have : bm.bits[k / 8]? = some bm.bits[k / 8] := List.getElem?_eq_getElem hlt
        rw [this]
        exact h _ (List.getElem_mem hlt)
      · rw [List.getD_eq_getElem?_getD, List.getElem?_eq_none (by omega)]
        simp
    have h2 : (1 <<< (k % 8) : Nat) < 256 := by
      rw [Nat.one_shiftLeft]
      have : k % 8 < 8 := Nat.mod_lt _ (by omega)
      calc (2:Nat) ^ (k % 8) ≤ 2 ^ 7 := Nat.pow_le_pow_right (by omega) (by omega)
      _ < 256 := by norm_num
    have : bm.bits.getD (k / 8) 0 ||| 1 <<< (k % 8) < 2 ^ 8 :=
      Nat.or_lt_two_pow (by omega) (by omega)
    omega

theorem bytesOk_bitSet0 (bm : BlockBitmap) (k : Nat) (h : bytesOk bm) :
    bytesOk (bitSet0 bm k) := by
  intro x hx
  rcases List.mem_or_eq_of_mem_set hx with hx' | rfl
  · exact h x hx'
  · calc bm.bits.getD (k / 8) 0 &&& (0xff ^^^ 1 <<< (k % 8)) ≤ bm.bits.getD (k / 8) 0 :=
        Nat.and_le_left
    _ < 256 := by
        rcases Nat.lt_or_ge (k / 8) bm.bits.length with hlt | hge
        · rw [List.getD_eq_getElem?_getD]
          have : bm.bits[k / 8]? = some bm.bits[k / 8] := List.getElem?_eq_getElem hlt
          rw [this]
          exact h _ (List.getElem_mem hlt)
        · rw [List.getD_eq_getElem?_getD, List.getElem?_eq_none (by omega)]
          simp

theorem firstOneByteIdx_spec (l : List Nat) (hex : ∃ x ∈ l, x ≠ 0) :
    firstOneByteIdx l < l.length ∧ l.getD (firstOneByteIdx l) 0 ≠ 0 := by
  induction l with
  | nil => simp at hex
  | cons b rest ih =>
    by_cases hb : b ≠ 0
    · simp [firstOneByteIdx, hb]
    · have hb0 : b = 0 := by omega
      have hex' : ∃ x ∈ rest, x ≠ 0 := by
        rcases hex with ⟨x, hx, hxne⟩
        rcases List.mem_cons.1 hx with rfl | hx'
        · omega
        · exact ⟨x, hx', hxne⟩
      rcases ih hex' with ⟨h1, h2⟩
      refine ⟨?_, ?_⟩
      · simp only [firstOneByteIdx, hb0]
        simpa using Nat.succ_lt_succ h1
      · simp only [firstOneByteIdx, hb0]
        simpa using h2

theorem testBit_of_and_shl_ne {byte off : Nat} (hbit : byte &&& 1 <<< off ≠ 0) :
    byte.testBit off = true := by
  rw [Nat.one_shiftLeft, Nat.and_two_pow] at hbit
  rcases h : byte.testBit off
  · rw [h] at hbit; simp at hbit
  · rfl

theorem and_shl_eq_zero_testBit {byte off : Nat} (hbit : ¬ byte &&& 1 <<< off ≠ 0) :
    byte.testBit off = false := by
  rw [Nat.one_shiftLeft, Nat.and_two_pow] at hbit
  rcases h : byte.testBit off
  · rfl
  · rw [h] at hbit; simp at hbit

theorem firstBitOffset_spec_aux (byte : Nat) : ∀ (fuel off : Nat), fuel = 8 - off →
    (∃ i, off ≤ i ∧ i < 8 ∧ byte.testBit i = true) →
    firstBitOffset byte off < 8 ∧ byte.testBit (firstBitOffset byte off) = true ∧
      off ≤ firstBitOffset byte off := by
  intro fuel
  induction fuel with
  | zero =>
    intro off hf hex
    rcases hex with ⟨i, h1, h2, _⟩
    omega
  | succ n ih =>
    intro off hf hex
    have hoff : off < 8 := by
      rcases hex with ⟨i, h1, h2, _⟩
      omega
    rw [firstBitOffset_eq, if_neg (by omega : ¬ off ≥ 8)]
    by_cases hbit : byte &&& 1 <<< off ≠ 0
    · rw [if_pos hbit]
      exact ⟨hoff, testBit_of_and_shl_ne hbit, le_refl _⟩
    · rw [if_neg hbit]
      have hbit0 : byte.testBit off = false := and_shl_eq_zero_testBit hbit
      have hex' : ∃ i, off + 1 ≤ i ∧ i < 8 ∧ byte.testBit i = true := by
        rcases hex with ⟨i, h1, h2, h3⟩
        refine ⟨i, ?_, h2, h3⟩
        rcases Nat.eq_or_lt_of_le h1 with rfl | h
        · rw [hbit0] at h3; simp at h3
        · omega
      have := ih (off + 1) (by omega) hex'
      exact ⟨this.1, this.2.1, by omega⟩

theorem firstBitOffset_spec (byte : Nat) (off : Nat)
    (hex : ∃ i, off ≤ i ∧ i < 8 ∧ byte.testBit i = true) :
    firstBitOffset byte off < 8 ∧ byte.testBit (firstBitOffset byte off) = true ∧
      off ≤ firstBitOffset byte off :=
  firstBitOffset_spec_aux byte (8 - off) off rfl hex

theorem exists_nonzero_byte (bm : BlockBitmap) (j : Nat)
    (hj : j < 8 * bm.bits.length) (hget : bitGet bm j = true) :
    ∃ x ∈ bm.bits, x ≠ 0 := by
  rw [bitGet_eq_testBit] at hget
  refine ⟨bm.bits.getD (j / 8) 0, ?_, ?_⟩
  · have hlt : j / 8 < bm.bits.length := by omega
    rw [List.getD_eq_getElem?_getD]
    have : bm.bits[j / 8]? = some bm.bits[j / 8] := List.getElem?_eq_getElem hlt
    rw [this]
    exact List.getElem_mem hlt
  · intro h0
    rw [h0] at hget
    simp at hget

theorem first_1_eq (bm : BlockBitmap) :
    bm.first_1 = firstOneByteIdx bm.bits * 8 +
      firstBitOffset (bm.bits.getD (firstOneByteIdx bm.bits) 0) 0 := rfl

theorem first_1_spec (bm : BlockBitmap) (hbytes : bytesOk bm)
    (hex : ∃ j < 8 * bm.bits.length, bitGet bm j = true) :
    bitGet bm bm.first_1 = true ∧ bm.first_1 < 8 * bm.bits.length := by
  rcases hex with ⟨j, hj, hget⟩
  rcases firstOneByteIdx_spec bm.bits (exists_nonzero_byte bm j hj hget) with ⟨hidx, hbyte⟩
  have hbyte256 : bm.bits.getD (firstOneByteIdx bm.bits) 0 < 256 := by
    rw [List.getD_eq_getElem?_getD]
    have h0 : bm.bits[firstOneByteIdx bm.bits]? = some bm.bits[firstOneByteIdx bm.bits] :=
      List.getElem?_eq_getElem hidx
    rw [h0]
    exact hbytes _ (List.getElem_mem hidx)
  have hexbit : ∃ i, 0 ≤ i ∧ i < 8 ∧
      (bm.bits.getD (firstOneByteIdx bm.bits) 0).testBit i = true := by
    obtain ⟨i, hti, -⟩ := Nat.exists_most_significant_bit hbyte
    have hi8 : i < 8 := by
      by_contra hge
      have h256 : (256 : Nat) ≤ 2 ^ i := by
        calc (256 : Nat) = 2 ^ 8 := by norm_num
        _ ≤ 2 ^ i := Nat.pow_le_pow_right (by omega) (by omega)
      have hfalse : (bm.bits.getD (firstOneByteIdx bm.bits) 0).testBit i = false :=
        Nat.testBit_eq_false_of_lt (by omega)
      rw [hfalse] at hti
      exact Bool.noConfusion hti
    exact ⟨i, by omega, hi8, hti⟩
  rcases firstBitOffset_spec (bm.bits.getD (firstOneByteIdx bm.bits) 0) 0 hexbit with
    ⟨hlt8, htb, _⟩
  constructor
  · rw [bitGet_eq_testBit, first_1_eq]
    have hdiv : (firstOneByteIdx bm.bits * 8 +
        firstBitOffset (bm.bits.getD (firstOneByteIdx bm.bits) 0) 0) / 8 =
        firstOneByteIdx bm.bits := by omega
    have hmod : (firstOneByteIdx bm.bits * 8 +
        firstBitOffset (bm.bits.getD (firstOneByteIdx bm.bits) 0) 0) % 8 =
        firstBitOffset (bm.bits.getD (firstOneByteIdx bm.bits) 0) 0 := by omega
    rw [hdiv, hmod]
    exact htb
  · rw [first_1_eq]
    omega

theorem allocLoop_none (fuel : Nat) : ∀ (b : BuddyBlock) (al fit j : Nat),
    ∀ r, allocLoop b al fit fuel j = (none, r) → r = b := by
  induction fuel with
  | zero =>
    intro b al fit j r h
    cases h
    rfl
  | succ n ih =>
    intro b al fit j r h
    by_cases hj : j ≥ b.bitmaps.length
    · rw [allocLoop_stop b al fit (n + 1) j hj] at h
      cases h
      rfl
    · by_cases hc : (getLevel b j).count = 0
      · rw [allocLoop_skip b al fit n j (by omega) hc] at h
        exact ih b al fit (j + 1) r h
      · rw [allocLoop_hit b al fit n j (by omega) hc] at h
        exact absurd (congrArg Prod.fst h) (by simp)

theorem buddy_alloc_none_unchanged {b b' : BuddyBlock} {len : Nat}
    (h : b.alloc len = .ok (none, b')) : b' = b := by
  unfold BuddyBlock.alloc at h
  by_cases h0 : len = 0
  · simp [h0] at h
  · simp only [if_neg h0] at h
    by_cases hfit : bitmap_index_for_size (divCeil len UNIT_SIZE * UNIT_SIZE) ≥ b.bitmaps.length
    · simp only [if_pos hfit] at h
      injection h with h
      injection h with _ h
      exact h.symm
    · simp only [if_neg hfit] at h
      injection h with h
      rcases hh : allocLoop b (divCeil len UNIT_SIZE * UNIT_SIZE)
          (bitmap_index_for_size (divCeil len UNIT_SIZE * UNIT_SIZE)) b.bitmaps.length
          (bitmap_index_for_size (divCeil len UNIT_SIZE * UNIT_SIZE)) with ⟨r0, b0⟩
      rw [hh] at h
      cases h
      exact allocLoop_none b.bitmaps.length b _ _ _ b' hh

theorem bitGet_default (j : Nat) : bitGet (default : BlockBitmap) j = false := by
  unfold bitGet
  simp [Inhabited.default]

theorem getLevel_ge (b : BuddyBlock) (i : Nat) (h : b.bitmaps.length ≤ i) :
    getLevel b i = default := by
  unfold getLevel
  rw [List.getD_eq_getElem?_getD, List.getElem?_eq_none (by omega)]
  rfl

theorem nLevels_pos (bc : Nat) : 1 ≤ nLevels bc := by
  rw [nLevels]
  by_cases h : bc ≤ 1 <;> simp [h]

theorem nLevels_rec (bc : Nat) (h : 2 ≤ bc) : nLevels bc = nLevels (bc / 2) + 1 := by
  rw [nLevels, if_neg (by omega)]

theorem nLevels_le_self (bc : Nat) (h : 1 ≤ bc) : nLevels bc ≤ bc := by
  induction bc using Nat.strong_induction_on with
  | _ bc ih =>
    by_cases h1 : bc ≤ 1
    · rw [nLevels, if_pos h1]
      omega
    · rw [nLevels_rec bc (by omega)]
      have := ih (bc / 2) (Nat.div_lt_self (by omega) (by omega)) (by omega)
      omega

theorem chunkLoopGo_fst : ∀ (fuel bc l bs : Nat), 1 ≤ bc → nLevels bc ≤ fuel →
    (chunkLoopGo fuel bc l bs).1 = l + nLevels bc := by
  intro fuel
  induction fuel with
  | zero =>
    intro bc l bs h1 h2
    have := nLevels_pos bc
    omega
  | succ n ih =>
    intro bc l bs h1 h2
    simp only [chunkLoopGo]
    by_cases hbc : bc ≤ 1
    · rw [if_pos hbc, nLevels, if_pos hbc]
    · rw [if_neg hbc]
      rw [nLevels_rec bc (by omega)] at h2 ⊢
      rw [ih (bc / 2) _ _ (by omega) (by omega)]
      omega

theorem chunkLoop_fst (bc l bs : Nat) (h : 1 ≤ bc) :
    (chunkLoop bc l bs).1 = l + nLevels bc :=
  chunkLoopGo_fst bc bc l bs h (nLevels_le_self bc h)

theorem shiftRight_succ_div (u k : Nat) : u >>> (k + 1) = (u / 2) >>> k := by
  rw [Nat.shiftRight_eq_div_pow, Nat.shiftRight_eq_div_pow, pow_succ]
  rw [Nat.div_div_eq_div_mul, Nat.mul_comm]

theorem shiftRight_mono_num {u v : Nat} (k : Nat) (h : u ≤ v) : u >>> k ≤ v >>> k := by
  rw [Nat.shiftRight_eq_div_pow, Nat.shiftRight_eq_div_pow]
  exact Nat.div_le_div_right h

theorem shiftRight_anti (u : Nat) {i k : Nat} (h : i ≤ k) : u >>> k ≤ u >>> i := by
  rw [Nat.shiftRight_eq_div_pow, Nat.shiftRight_eq_div_pow]
  exact Nat.div_le_div_left (Nat.pow_le_pow_right (by omega) h) (Nat.pos_pow_of_pos _ (by omega))

theorem nLevels_top_one (bc : Nat) (h : 1 ≤ bc) : bc >>> (nLevels bc - 1) = 1 := by
  induction bc using Nat.strong_induction_on with
  | _ bc ih =>
    rw [nLevels]
    by_cases h1 : bc ≤ 1
    · have : bc = 1 := by omega
      subst this
      simp
    · simp only [h1, if_false, Nat.add_sub_cancel]
      have hrec := ih (bc / 2) (Nat.div_lt_self (by omega) (by omega)) (by omega)
      have hL := nLevels_pos (bc / 2)
      calc bc >>> nLevels (bc / 2)
          = bc >>> ((nLevels (bc / 2) - 1) + 1) := by
            congr 1
            omega
      _ = (bc / 2) >>> (nLevels (bc / 2) - 1) := by
            rw [Nat.add_comm, Nat.add_comm 1 _, shiftRight_succ_div]
      _ = 1 := hrec

theorem initEntry_bits_length (bc : Nat) :
    (initEntry bc).bits.length = (bc - 1) / 8 + 1 := by
  unfold initEntry
  by_cases h : bc % 2 ≠ 0 <;> simp [h]

theorem initEntry_bytesOk (bc : Nat) : bytesOk (initEntry bc) := by
  unfold initEntry
  by_cases h : bc % 2 ≠ 0
  · rw [if_pos h]
    intro x hx
    rcases List.mem_or_eq_of_mem_set hx with hx' | rfl
    · rw [List.eq_of_mem_replicate hx']
      omega
    · rw [Nat.one_shiftLeft]
      have hm : bc % 8 - 1 < 8 := by omega
      calc (2:Nat) ^ (bc % 8 - 1) ≤ 2 ^ 7 := Nat.pow_le_pow_right (by omega) (by omega)
      _ < 256 := by norm_num
  · rw [if_neg h]
    intro x hx
    rw [List.eq_of_mem_replicate hx]
    omega

theorem getD_replicate (n v i d : Nat) :
    (List.replicate n v).getD i d = if i < n then v else d := by
  rw [List.getD_eq_getElem?_getD, List.getElem?_replicate]
  by_cases h : i < n <;> simp [h]

theorem initEntry_bitGet (bc : Nat) (hbc : 1 ≤ bc) (j : Nat) :
    bitGet (initEntry bc) j = decide (bc % 2 = 1 ∧ j = bc - 1) := by
  rw [bitGet_eq_testBit]
  unfold initEntry
  by_cases hodd : bc % 2 ≠ 0
  · rw [if_pos hodd]
    have hLpos : (bc - 1) / 8 + 1 - 1 < (bc - 1) / 8 + 1 := by omega
    have hlen : (List.replicate ((bc - 1) / 8 + 1) 0).length = (bc - 1) / 8 + 1 :=
      List.length_replicate _ _
    by_cases hdiv : j / 8 = (bc - 1) / 8
    · have : ((List.replicate ((bc - 1) / 8 + 1) 0).set ((bc - 1) / 8 + 1 - 1)
          (1 <<< (bc % 8 - 1))).getD (j / 8) 0 = 1 <<< (bc % 8 - 1) := by
        rw [hdiv]
        have he : (bc - 1) / 8 + 1 - 1 = (bc - 1) / 8 := by omega
        rw [he]
        exact getD_set_self _ _ _ _ (by rw [hlen]; omega)
      rw [this, Nat.one_shiftLeft]
      have hmod8 : (bc - 1) % 8 = bc % 8 - 1 := by omega
      by_cases hmod : j % 8 = (bc - 1) % 8
      · have hj : j = bc - 1 := (div_mod_eq_iff_eq (by omega)).1 ⟨hdiv, hmod⟩
        simp [hj, hmod8.symm, hmod, Nat.testBit_two_pow_self]
        omega
      · have hj : j ≠ bc - 1 := fun h => hmod (by rw [h])
        rw [Nat.testBit_two_pow_of_ne (by omega)]
        simp [hj]
    · have hj : j ≠ bc - 1 := fun h => hdiv (by rw [h])
      have : ((List.replicate ((bc - 1) / 8 + 1) 0).set ((bc - 1) / 8 + 1 - 1)
          (1 <<< (bc % 8 - 1))).getD (j / 8) 0 = 0 := by
        rw [getD_set_ne _ _ _ _ _ (by omega), getD_replicate]
        by_cases h : j / 8 < (bc - 1) / 8 + 1 <;> simp [h]
      rw [this]
      simp [hj]
  · rw [if_neg hodd]
    have : (List.replicate ((bc - 1) / 8 + 1) 0).getD (j / 8) 0 = 0 := by
      rw [getD_replicate]
      by_cases h : j / 8 < (bc - 1) / 8 + 1 <;> simp [h]
    rw [this]
    have : ¬ (bc % 2 = 1 ∧ j = bc - 1) := by omega
    simp [this]

theorem initEntry_countFree (bc : Nat) (hbc : 1 ≤ bc) :
    countFree (initEntry bc) = if bc % 2 = 1 then 1 else 0 := by
  unfold countFree
  rw [Finset.sum_congr rfl (fun j _ => by rw [initEntry_bitGet bc hbc j])]
  simp only [decide_eq_true_eq]
  by_cases hodd : bc % 2 = 1
  · have hcong : ∀ j ∈ Finset.range (8 * (initEntry bc).bits.length),
        (if (bc % 2 = 1 ∧ j = bc - 1) then (1:Nat) else 0) = if j = bc - 1 then 1 else 0 := by
      intro j _
      simp [hodd]
    rw [Finset.sum_congr rfl hcong, Finset.sum_ite_eq' (Finset.range _) (bc - 1) (fun _ => 1)]
    have hin : bc - 1 ∈ Finset.range (8 * (initEntry bc).bits.length) := by
      rw [Finset.mem_range, initEntry_bits_length]
      omega
    simp [hin, hodd]
  · have hcong : ∀ j ∈ Finset.range (8 * (initEntry bc).bits.length),
        (if (bc % 2 = 1 ∧ j = bc - 1) then (1:Nat) else 0) = 0 := by
      intro j _
      simp [hodd]
    rw [Finset.sum_congr rfl hcong]
    simp [hodd]

theorem initEntry_count (bc : Nat) :
    (initEntry bc).count = if bc % 2 = 1 then 1 else 0 := by
  unfold initEntry
  by_cases h : bc % 2 ≠ 0
  · rw [if_pos h]
    have h1 : bc % 2 = 1 := by omega
    simp [h1]
  · rw [if_neg h]
    have h1 : ¬ bc % 2 = 1 := by omega
    simp [h1]

theorem initBitmapsGo_length : ∀ (fuel bc : Nat), 1 ≤ bc → nLevels bc ≤ fuel →
    (initBitmapsGo fuel bc).length = nLevels bc := by
  intro fuel
  induction fuel with
  | zero =>
    intro bc h1 h2
    have := nLevels_pos bc
    omega
  | succ n ih =>
    intro bc h1 h2
    simp only [initBitmapsGo]
    rw [if_neg (by omega : ¬ bc = 0), List.length_cons]
    by_cases hbc : bc ≤ 1
    · have hbc1 : bc = 1 := by omega
      subst hbc1
      have h0 : initBitmapsGo n (1 / 2) = [] := by
        cases n <;> rfl
      rw [h0, nLevels]
      simp
    · rw [nLevels_rec bc (by omega)] at h2 ⊢
      rw [ih (bc / 2) (by omega) (by omega)]

theorem initBitmaps_length (bc : Nat) (h : 1 ≤ bc) :
    (initBitmaps bc).length = nLevels bc :=
  initBitmapsGo_length bc bc h (nLevels_le_self bc h)

theorem initBitmapsGo_getD : ∀ (fuel bc : Nat), 1 ≤ bc → nLevels bc ≤ fuel →
    ∀ i < nLevels bc, (initBitmapsGo fuel bc).getD i default = initEntry (bc >>> i) := by
  intro fuel
  induction fuel with
  | zero =>
    intro bc h1 h2
    have := nLevels_pos bc
    omega
  | succ n ih =>
    intro bc h1 h2 i hi
    simp only [initBitmapsGo]
    rw [if_neg (by omega : ¬ bc = 0)]
    match i with
    | 0 => simp
    | i + 1 =>
      have hbc2 : 2 ≤ bc := by
        by_contra hlt
        have hbc : bc = 1 := by omega
        rw [hbc, nLevels] at hi
        simp at hi
      rw [nLevels_rec bc (by omega)] at hi h2
      simp only [List.getD_cons_succ]
      rw [ih (bc / 2) (by omega) (by omega) i (by omega), shiftRight_succ_div]

theorem initBitmaps_getD (bc : Nat) (h : 1 ≤ bc) :
    ∀ i < nLevels bc, (initBitmaps bc).getD i default = initEntry (bc >>> i) :=
  initBitmapsGo_getD bc bc h (nLevels_le_self bc h)

theorem from_chunk_ok {addr len : Nat} {info : BuddyBlockInfo}
    (h : BuddyBlockInfo.from_chunk addr len = .ok info) :
    info.units = (len - 1) / UNIT_SIZE + 1 ∧ info.levels = nLevels info.units ∧
      info.raw_addr = addr ∧ info.total_len = len ∧ info.data_offset = 0 := by
  unfold BuddyBlockInfo.from_chunk at h
  by_cases h1 : len > UNIT_SIZE
  · simp only [h1, not_true, if_neg, ite_false, not_false_iff, ite_true] at h
    rcases hcl : chunkLoop ((len - 1) / UNIT_SIZE + 1) 0 0 with ⟨lv, bs⟩
    rw [hcl] at h
    by_cases h2 : lv * sizeOfBlockBitmap + bs < len
    · simp only [h2, not_true, if_neg, ite_false, not_false_iff, ite_true] at h
      injection h with h
      subst h
      refine ⟨rfl, ?_, rfl, rfl, rfl⟩
      show lv = nLevels ((len - 1) / UNIT_SIZE + 1)
      have := chunkLoop_fst ((len - 1) / UNIT_SIZE + 1) 0 0
      rw [hcl] at this
      simpa using this
    · simp [h2] at h
  · simp [h1] at h

theorem error_bind {ε α β : Type} (msg : ε) (f : α → Except ε β) :
    (Except.error msg >>= f) = .error msg := rfl

theorem ok_bind {ε α β : Type} (a : α) (f : α → Except ε β) :
    (Except.ok a >>= f) = f a := rfl

theorem info_new_ok {raw len : Nat} {info : BuddyBlockInfo}
    (h : BuddyBlockInfo.new raw len = .ok info) :
    info.levels = nLevels info.units ∧ 1 ≤ info.units := by
  unfold BuddyBlockInfo.new at h
  rcases h1 : BuddyBlockInfo.from_chunk raw len with msg | tmp
  · rw [h1, error_bind] at h
    exact Except.noConfusion h
  · rw [h1, ok_bind] at h
    rcases h2 : BuddyBlockInfo.from_chunk
        (raw + divCeil tmp.metadata_len UNIT_SIZE * UNIT_SIZE)
        (len - divCeil tmp.metadata_len UNIT_SIZE * UNIT_SIZE) with msg | inner
    · simp only [h2, error_bind] at h
      exact Except.noConfusion h
    · simp only [h2, ok_bind] at h
      rcases from_chunk_ok h2 with ⟨hu, hl, _, _, _⟩
      by_cases h3 : inner.metadata_len < divCeil tmp.metadata_len UNIT_SIZE * UNIT_SIZE
      · rw [if_neg (not_not_intro h3)] at h
        injection h with h
        subst h
        refine ⟨by simpa using hl, ?_⟩
        show 1 ≤ inner.units
        rw [hu]
        exact Nat.succ_le_succ (Nat.zero_le _)
      · rw [if_pos h3] at h
        exact Except.noConfusion h

theorem buddy_new_ok {raw len : Nat} {b : BuddyBlock}
    (h : BuddyBlock.new raw len = .ok b) :
    b.used = 0 ∧ b.bitmaps = initBitmaps b.info.units ∧
      b.info.levels = nLevels b.info.units ∧ 1 ≤ b.info.units := by
  unfold BuddyBlock.new at h
  rcases h1 : BuddyBlockInfo.new raw len with msg | info
  · rw [h1, error_bind] at h
    exact Except.noConfusion h
  · rw [h1, ok_bind] at h
    injection h with h
    subst h
    rcases info_new_ok h1 with ⟨hl, hu⟩
    exact ⟨rfl, rfl, hl, hu⟩

/-- The asymmetric-tail free blocks at construction cover each unit of the
data region exactly once. -/
theorem init_cover_sum (units : Nat) : ∀ u, 1 ≤ units → u < units →
    (∑ i ∈ Finset.range (nLevels units),
      if (units >>> i) % 2 = 1 ∧ u >>> i = units >>> i - 1 then 1 else 0) = 1 := by
  induction units using Nat.strong_induction_on with
  | _ units ih =>
    intro u h1 hu
    by_cases hsmall : units ≤ 1
    · have hunits : units = 1 := by omega
      subst hunits
      have hu0 : u = 0 := by omega
      subst hu0
      rw [show nLevels 1 = 1 from by rw [nLevels]; simp]
      rw [Finset.sum_range_one]
      norm_num
    · rw [nLevels, if_neg hsmall, Finset.sum_range_succ']
      have hterm : ∀ i, (if (units >>> (i + 1)) % 2 = 1 ∧
            u >>> (i + 1) = units >>> (i + 1) - 1 then (1:Nat) else 0)
          = (if ((units / 2) >>> i) % 2 = 1 ∧
            (u / 2) >>> i = (units / 2) >>> i - 1 then 1 else 0) := by
        intro i
        rw [shiftRight_succ_div, shiftRight_succ_div]
      rw [Finset.sum_congr rfl (fun i _ => hterm i)]
      simp only [Nat.shiftRight_zero]
      by_cases hcase : units % 2 = 1 ∧ u = units - 1
      · rw [if_pos hcase]
        have hud : u / 2 = units / 2 := by omega
        have hzero : ∀ i ∈ Finset.range (nLevels (units / 2)),
            (if ((units / 2) >>> i) % 2 = 1 ∧
              (u / 2) >>> i = (units / 2) >>> i - 1 then (1:Nat) else 0) = 0 := by
          intro i _
          rw [hud]
          have : ¬ (((units / 2) >>> i) % 2 = 1 ∧
              (units / 2) >>> i = (units / 2) >>> i - 1) := by omega
          simp [this]
        rw [Finset.sum_eq_zero hzero]
      · rw [if_neg hcase]
        have hud : u / 2 < units / 2 := by omega
        rw [ih (units / 2) (Nat.div_lt_self (by omega) (by omega)) (u / 2) (by omega) hud]

/-- `BuddyBlock::new` yields a well-formed state with no outstanding
allocations. -/
theorem wf_init {raw len : Nat} {b : BuddyBlock}
    (h : BuddyBlock.new raw len = .ok b) : BuddyWF b [] := by
  rcases buddy_new_ok h with ⟨hused, hbm, hlv, hu⟩
  have hget : ∀ i < b.info.levels, getLevel b i = initEntry (b.info.units >>> i) := by
    intro i hi
    unfold getLevel
    rw [hbm]
    exact initBitmaps_getD _ hu i (by omega)
  have hshift_pos : ∀ i < b.info.levels, 1 ≤ b.info.units >>> i := by
    intro i hi
    have htop := nLevels_top_one b.info.units hu
    have hanti : b.info.units >>> (b.info.levels - 1) ≤ b.info.units >>> i :=
      shiftRight_anti b.info.units (by omega)
    rw [← hlv] at htop
    omega
  refine ⟨?_, ?_, ?_, ?_, ?_, ?_, ?_, ?_, ?_, ?_⟩
  · rw [hlv]; exact nLevels_pos _
  · rw [hbm, hlv]; exact initBitmaps_length _ hu
  · rw [hlv]; exact nLevels_top_one _ hu
  · intro i hi
    rw [hget i hi, initEntry_bits_length]
  · intro i hi
    rw [hget i hi]
    exact initEntry_bytesOk _
  · intro i j hfree
    unfold freeBit at hfree
    have hilt : i < b.info.levels := by
      by_contra hge
      rw [getLevel_ge b i (by rw [hbm, initBitmaps_length _ hu, ← hlv]; omega)] at hfree
      rw [bitGet_default] at hfree
      exact Bool.noConfusion hfree
    rw [hget i hilt, initEntry_bitGet _ (hshift_pos i hilt)] at hfree
    have hj := (of_decide_eq_true hfree).2
    have hpos : 1 ≤ b.info.units >>> i := hshift_pos i hilt
    exact ⟨hilt, by omega⟩
  · intro i hi
    rw [hget i hi, initEntry_count, initEntry_countFree _ (hshift_pos i hi)]
  · intro u huu
    unfold coverCount allocCover freeCover
    simp only [List.map_nil, List.sum_nil, Nat.add_zero]
    have hcong : ∀ i ∈ Finset.range b.info.levels,
        (if freeBit b i (u >>> i) then (1:Nat) else 0) =
          if (b.info.units >>> i) % 2 = 1 ∧ u >>> i = b.info.units >>> i - 1
          then 1 else 0 := by
      intro i hi
      rw [Finset.mem_range] at hi
      unfold freeBit
      rw [hget i hi, initEntry_bitGet _ (hshift_pos i hi)]
      by_cases hc : (b.info.units >>> i) % 2 = 1 ∧ u >>> i = b.info.units >>> i - 1 <;>
        simp [hc]
    rw [Finset.sum_congr rfl hcong, hlv]
    exact init_cover_sum _ u hu huu
  · intro p hp
    simp at hp
  · intro i k hpair
    rcases hpair with ⟨h1, h2⟩
    unfold freeBit at h1 h2
    have hilt : i < b.info.levels := by
      by_contra hge
      rw [getLevel_ge b i (by rw [hbm, initBitmaps_length _ hu, ← hlv]; omega)] at h1
      rw [bitGet_default] at h1
      exact Bool.noConfusion h1
    rw [hget i hilt, initEntry_bitGet _ (hshift_pos i hilt)] at h1 h2
    have ha := of_decide_eq_true h1
    have hb := of_decide_eq_true h2
    omega

/-- Claim C2, counterexample: after `construct(X, 0x200000)` with `X = 0`,
the first `alloc(1)` returns `0x1ff000` (the pre-marked level-0 tail block),
not `X + 0x1000` as the claim states. -/
theorem c2_counterexample :
    demoAllocOne = .ok (some 0x1ff000) ∧ (0x1ff000 : Nat) ≠ 0 + 0x1000 := by
  exact ⟨rfl, by norm_num⟩

/-- Claim C2, amended (instantiated at `X = 0`): `construct(X, 0x200000)`
gives `units = 0x1ff`, `levels = 9` and `data_base = X + 0x1000` as the
claim states, but the first `alloc(1)` returns `X + 0x1ff000`: the only
level-0 block free at construction is the asymmetric tail block 510. -/
theorem c2_amended :
    (BuddyBlock.new 0 0x200000).map
        (fun b => (b.info.units, b.info.levels, dataAddr b)) =
      .ok (0x1ff, 9, 0 + 0x1000) ∧
    demoAllocOne = .ok (some (0 + 0x1ff000)) := by
  exact ⟨rfl, rfl⟩

/-- Claim C6, counterexample: on a 2 MiB region, `a = alloc(0x2000)` is a
level-1 allocation, yet `dealloc(a, 0x1000)` — whose rounded size selects
level 0, disagreeing with the allocation — returns normally instead of
panicking. -/
theorem c6_counterexample :
    isOkE demoSizeMismatchRaw = true ∧ fitOf 0x1000 ≠ fitOf 0x2000 := by
  exact ⟨rfl, by decide⟩

/-- Claim C6, amended: buddy `dealloc` does not check that the freed size
matches the allocation.  After `a = alloc(0x2000)` (level 1, address
`0x1fd000`), `dealloc(a, 0x1000)` — level 0 — completes without panic and
decrements `used` by only `0x1000`; dealloc panics only for ranges outside
the data region, sizes beyond the top level, or blocks already marked
free. -/
theorem c6_amended :
    demoSizeMismatch = .ok (some 0x1fd000, 0x1000) ∧ fitOf 0x1000 ≠ fitOf 0x2000 := by
  exact ⟨rfl, by decide⟩

/-- Claim C8, counterexample: with `construct(0, 0x3001)` (total length not
a unit multiple) the first `alloc(1)` returns `0x3000`, whose 4096-byte
block extends past the end of the data region
`[0x1000, 0x3001)`. -/
theorem c8_counterexample :
    demoTailBlock = .ok (some 0x3000, 0x1000, 0x3001) ∧ 0x3001 < 0x3000 + UNIT_SIZE := by
  exact ⟨rfl, by decide⟩

theorem getLevel_updateLevel_self (b : BuddyBlock) (i : Nat) (bm : BlockBitmap)
    (h : i < b.bitmaps.length) : getLevel (updateLevel b i bm) i = bm := by
  unfold getLevel updateLevel
  simp only
  rw [List.getD_eq_getElem?_getD]
  simp [List.getElem?_set, h]

theorem getLevel_updateLevel_ne (b : BuddyBlock) (i i' : Nat) (bm : BlockBitmap)
    (h : i ≠ i') : getLevel (updateLevel b i bm) i' = getLevel b i' := by
  unfold getLevel updateLevel
  simp only
  rw [List.getD_eq_getElem?_getD, List.getD_eq_getElem?_getD]
  simp [List.getElem?_set, h]

theorem updateLevel_twice (b : BuddyBlock) (i : Nat) (bm1 bm2 : BlockBitmap) :
    updateLevel (updateLevel b i bm1) i bm2 = updateLevel b i bm2 := by
  unfold updateLevel
  simp [List.set_set]

theorem freeBit_updateLevel_set1 (b : BuddyBlock) (i k : Nat)
    (hi : i < b.bitmaps.length)
    (hk : k / 8 < (getLevel b i).bits.length) (i' j : Nat) :
    freeBit (updateLevel b i (bitSet1 (getLevel b i) k)) i' j =
      ((decide (i' = i) && decide (j = k)) || freeBit b i' j) := by
  unfold freeBit
  rcases eq_or_ne i' i with rfl | hne
  · rw [getLevel_updateLevel_self b i' _ hi, bitGet_bitSet1 _ _ _ hk]
    simp
  · rw [getLevel_updateLevel_ne b i i' _ (Ne.symm hne)]
    simp [hne]

theorem freeBit_updateLevel_set0 (b : BuddyBlock) (i k : Nat)
    (hi : i < b.bitmaps.length)
    (hk : k / 8 < (getLevel b i).bits.length) (i' j : Nat) :
    freeBit (updateLevel b i (bitSet0 (getLevel b i) k)) i' j =
      (!(decide (i' = i) && decide (j = k)) && freeBit b i' j) := by
  unfold freeBit
  rcases eq_or_ne i' i with rfl | hne
  · rw [getLevel_updateLevel_self b i' _ hi, bitGet_bitSet0 _ _ _ hk]
    simp
  · rw [getLevel_updateLevel_ne b i i' _ (Ne.symm hne)]
    simp [hne]

theorem sum_indicator_exchange (L : Nat) (f g : Nat → Bool) (i : Nat) (hi : i < L)
    (hsame : ∀ i' < L, i' ≠ i → g i' = f i') :
    (∑ i' ∈ Finset.range L, if g i' then (1:Nat) else 0) + (if f i then 1 else 0) =
      (∑ i' ∈ Finset.range L, if f i' then (1:Nat) else 0) + (if g i then 1 else 0) := by
  have hmem : i ∈ Finset.range L := Finset.mem_range.mpr hi
  have hsplit : ∀ h : Nat → Bool,
      (∑ i' ∈ Finset.range L, if h i' then (1:Nat) else 0) =
        (∑ i' ∈ (Finset.range L).erase i, if h i' then (1:Nat) else 0) +
          (if h i then 1 else 0) := by
    intro h
    rw [Finset.sum_erase_add _ _ hmem]
  rw [hsplit f, hsplit g]
  have : ∀ i' ∈ (Finset.range L).erase i,
      (if g i' then (1:Nat) else 0) = if f i' then 1 else 0 := by
    intro i' hi'
    rcases Finset.mem_erase.1 hi' with ⟨hne, hmem'⟩
    rw [hsame i' (Finset.mem_range.1 hmem') hne]
  rw [Finset.sum_congr rfl this]
  omega

theorem info_updateLevel (b : BuddyBlock) (i : Nat) (bm : BlockBitmap) :
    (updateLevel b i bm).info = b.info := rfl

/-- Setting a currently clear bit `(i, k)` adds exactly the cover of block
`(i, k)`. -/
theorem coverCount_set1 (b : BuddyBlock) (O : List (Nat × Nat)) (i k : Nat)
    (hlen : b.bitmaps.length = b.info.levels)
    (hi : i < b.info.levels)
    (hk : k / 8 < (getLevel b i).bits.length)
    (hclear : freeBit b i k = false) (u : Nat) :
    coverCount (updateLevel b i (bitSet1 (getLevel b i) k)) O u =
      coverCount b O u + (if u >>> i = k then 1 else 0) := by
  unfold coverCount freeCover
  rw [info_updateLevel]
  have hup := freeBit_updateLevel_set1 b i k (by omega) hk
  have hex := sum_indicator_exchange b.info.levels
    (fun i' => freeBit b i' (u >>> i'))
    (fun i' => freeBit (updateLevel b i (bitSet1 (getLevel b i) k)) i' (u >>> i'))
    i hi (by
      intro i' _ hne
      show freeBit (updateLevel b i (bitSet1 (getLevel b i) k)) i' (u >>> i') =
        freeBit b i' (u >>> i')
      rw [hup i' (u >>> i')]
      simp [hne])
  beta_reduce at hex
  rw [hup i (u >>> i)] at hex
  by_cases hk2 : u >>> i = k
  · rw [if_pos hk2]
    rw [hk2] at hex
    rw [hclear] at hex
    have hd : (decide (i = i) && decide (k = k) || false) = true := by simp
    rw [hd] at hex
    simp only [Bool.false_eq_true, if_false, if_true] at hex
    omega
  · rw [if_neg hk2]
    have hd : (decide (i = i) && decide (u >>> i = k) || freeBit b i (u >>> i)) =
        freeBit b i (u >>> i) := by simp [hk2]
    rw [hd] at hex
    omega

/-- Clearing a currently set bit `(i, k)` removes exactly the cover of block
`(i, k)`. -/
theorem coverCount_set0 (b : BuddyBlock) (O : List (Nat × Nat)) (i k : Nat)
    (hlen : b.bitmaps.length = b.info.levels)
    (hi : i < b.info.levels)
    (hk : k / 8 < (getLevel b i).bits.length)
    (hset : freeBit b i k = true) (u : Nat) :
    coverCount (updateLevel b i (bitSet0 (getLevel b i) k)) O u +
        (if u >>> i = k then 1 else 0) =
      coverCount b O u := by
  unfold coverCount freeCover
  rw [info_updateLevel]
  have hup := freeBit_updateLevel_set0 b i k (by omega) hk
  have hex := sum_indicator_exchange b.info.levels
    (fun i' => freeBit b i' (u >>> i'))
    (fun i' => freeBit (updateLevel b i (bitSet0 (getLevel b i) k)) i' (u >>> i'))
    i hi (by
      intro i' _ hne
      show freeBit (updateLevel b i (bitSet0 (getLevel b i) k)) i' (u >>> i') =
        freeBit b i' (u >>> i')
      rw [hup i' (u >>> i')]
      simp [hne])
  beta_reduce at hex
  rw [hup i (u >>> i)] at hex
  by_cases hk2 : u >>> i = k
  · rw [if_pos hk2]
    rw [hk2] at hex
    rw [hset] at hex
    have hd : (!(decide (i = i) && decide (k = k)) && true) = false := by simp
    rw [hd] at hex
    simp only [Bool.false_eq_true, if_false, if_true] at hex
    omega
  · rw [if_neg hk2]
    have hd : (!(decide (i = i) && decide (u >>> i = k)) && freeBit b i (u >>> i)) =
        freeBit b i (u >>> i) := by simp [hk2]
    rw [hd] at hex
    omega

theorem shiftRight_succ_half (u i : Nat) : u >>> (i + 1) = (u >>> i) / 2 :=
  Nat.shiftRight_succ u i

theorem child_indicator (u i x : Nat) :
    (if u >>> (i + 1) = x then (1:Nat) else 0) =
      (if u >>> i = 2 * x then 1 else 0) + (if u >>> i = 2 * x + 1 then 1 else 0) := by
  rw [shiftRight_succ_half]
  by_cases h1 : u >>> i = 2 * x
  · rw [if_pos h1, if_pos (by omega), if_neg (by omega)]
  · by_cases h2 : u >>> i = 2 * x + 1
    · rw [if_pos (by omega), if_neg h1, if_pos h2]
    · rw [if_neg (by omega), if_neg h1, if_neg h2]

theorem shiftRight_mul_pow (x l : Nat) : (x * 2 ^ l) >>> l = x := by
  rw [Nat.shiftRight_eq_div_pow]
  exact Nat.mul_div_cancel x (Nat.pos_pow_of_pos l (by omega))

theorem shiftRight_mul_le (u l : Nat) : (u >>> l) * 2 ^ l ≤ u := by
  rw [Nat.shiftRight_eq_div_pow]
  exact Nat.div_mul_le_self u (2 ^ l)

theorem block_end_le (x u l : Nat) (h : x < u >>> l) : (x + 1) * 2 ^ l ≤ u := by
  calc (x + 1) * 2 ^ l ≤ (u >>> l) * 2 ^ l :=
    Nat.mul_le_mul_right _ (by omega)
  _ ≤ u := shiftRight_mul_le u l

theorem double_shiftRight_le (u i : Nat) : 2 * (u >>> (i + 1)) ≤ u >>> i := by
  rw [shiftRight_succ_half]
  omega

theorem freeBit_eq_false_of_cover_zero (b : BuddyBlock) (O : List (Nat × Nat)) (u i : Nat)
    (h : coverCount b O u = 0) (hi : i < b.info.levels) :
    freeBit b i (u >>> i) = false := by
  unfold coverCount freeCover at h
  have hsum : (∑ i' ∈ Finset.range b.info.levels,
      if freeBit b i' (u >>> i') then (1:Nat) else 0) = 0 := by omega
  have hterm := (Finset.sum_eq_zero_iff).1 hsum i (Finset.mem_range.mpr hi)
  rcases hb : freeBit b i (u >>> i)
  · rfl
  · rw [hb] at hterm
    simp at hterm

theorem hole_step (b : BuddyBlock) (O : List (Nat × Nat)) (n idx : Nat)
    (h : BuddyWFHole b O (n + 1) idx) :
    BuddyWFHole (updateLevel b n (bitSet1 (getLevel b n) (idx * 2 + 1))) O n (idx * 2) := by
  have hlt_n : n < b.info.levels := by
    have := h.lv_lt
    omega
  have hdouble : 2 * (b.info.units >>> (n + 1)) ≤ b.info.units >>> n :=
    double_shiftRight_le _ n
  have hbc : idx * 2 + 1 < b.info.units >>> n := by
    have := h.idx_lt
    omega
  have hk8 : (idx * 2 + 1) / 8 < (getLevel b n).bits.length := by
    rw [h.bits_len n hlt_n]
    omega
  have hcover_zero : ∀ v < b.info.units, v >>> (n + 1) = idx → coverCount b O v = 0 := by
    intro v hv hvi
    have := h.coverH v hv
    rw [if_pos hvi] at this
    omega
  have hpos2n : 0 < 2 ^ n := Nat.pos_pow_of_pos n (by omega)
  have hu_right : (idx * 2 + 1) * 2 ^ n < b.info.units := by
    have h2 : (idx + 1) * 2 ^ (n + 1) ≤ b.info.units :=
      block_end_le idx _ (n + 1) h.idx_lt
    have h3 : (idx * 2 + 2) * 2 ^ n = (idx + 1) * 2 ^ (n + 1) := by ring
    have h4 : (idx * 2 + 1) * 2 ^ n < (idx * 2 + 2) * 2 ^ n :=
      (Nat.mul_lt_mul_right hpos2n).mpr (by omega)
    exact lt_of_lt_of_le h4 ((le_of_eq h3).trans h2)
  have hright_shift : ((idx * 2 + 1) * 2 ^ n) >>> n = idx * 2 + 1 := shiftRight_mul_pow _ n
  have hright_shift1 : ((idx * 2 + 1) * 2 ^ n) >>> (n + 1) = idx := by
    rw [shiftRight_succ_half, hright_shift]
    omega
  have hfalse : freeBit b n (idx * 2 + 1) = false := by
    have := freeBit_eq_false_of_cover_zero b O ((idx * 2 + 1) * 2 ^ n) n
      (hcover_zero _ hu_right hright_shift1) hlt_n
    rw [hright_shift] at this
    exact this
  have hu_left : idx * 2 * 2 ^ n < b.info.units := by
    have hlt : idx * 2 * 2 ^ n < (idx * 2 + 1) * 2 ^ n :=
      (Nat.mul_lt_mul_right hpos2n).mpr (by omega)
    exact lt_trans hlt hu_right
  have hleft_shift : (idx * 2 * 2 ^ n) >>> n = idx * 2 := shiftRight_mul_pow _ n
  have hleft_shift1 : (idx * 2 * 2 ^ n) >>> (n + 1) = idx := by
    rw [shiftRight_succ_half, hleft_shift]
    omega
  have hleft_false : freeBit b n (idx * 2) = false := by
    have := freeBit_eq_false_of_cover_zero b O (idx * 2 * 2 ^ n) n
      (hcover_zero _ hu_left hleft_shift1) hlt_n
    rw [hleft_shift] at this
    exact this
  have hup := freeBit_updateLevel_set1 b n (idx * 2 + 1) (by rw [h.len_eq]; omega) hk8
  refine ⟨h.levels_pos, ?_, h.top_one, ?_, ?_, ?_, ?_, ?_, h.obounds, ?_, hlt_n, ?_⟩
  · rw [length_updateLevel, info_updateLevel, h.len_eq]
  · intro i hi
    rcases eq_or_ne i n with rfl | hne
    · rw [getLevel_updateLevel_self _ _ _ (by rw [h.len_eq]; omega), length_bitSet1]
      exact h.bits_len i hi
    · rw [getLevel_updateLevel_ne _ _ _ _ (Ne.symm hne)]
      exact h.bits_len i hi
  · intro i hi
    rcases eq_or_ne i n with rfl | hne
    · rw [getLevel_updateLevel_self _ _ _ (by rw [h.len_eq]; omega)]
      exact bytesOk_bitSet1 _ _ (h.bytes i hi)
    · rw [getLevel_updateLevel_ne _ _ _ _ (Ne.symm hne)]
      exact h.bytes i hi
  · intro i j hfree
    rw [hup i j] at hfree
    rcases Bool.or_eq_true_iff.1 hfree with hnew | hold
    · rcases Bool.and_eq_true_iff.1 hnew with ⟨h1, h2⟩
      have hi : i = n := of_decide_eq_true h1
      have hj : j = idx * 2 + 1 := of_decide_eq_true h2
      subst hi
      subst hj
      exact ⟨hlt_n, hbc⟩
    · exact h.bounds i j hold
  · intro i hi
    rcases eq_or_ne i n with rfl | hne
    · rw [getLevel_updateLevel_self _ _ _ (by rw [h.len_eq]; omega)]
      have hfalse2 : bitGet (getLevel b i) (idx * 2 + 1) = false := hfalse
      rw [count_bitSet1, countFree_bitSet1 _ _ hk8, hfalse2]
      simp only [Bool.false_eq_true, if_false]
      rw [h.counts i hi]
    · rw [getLevel_updateLevel_ne _ _ _ _ (Ne.symm hne)]
      exact h.counts i hi
  · intro u hu
    rw [info_updateLevel] at hu
    rw [coverCount_set1 b O n (idx * 2 + 1) h.len_eq hlt_n hk8 hfalse u]
    have hch := child_indicator u n idx
    rw [show 2 * idx = idx * 2 from by ring] at hch
    have hcv := h.coverH u hu
    omega
  · intro i t hpair
    rcases hpair with ⟨hl, hr⟩
    rw [hup i (2 * t)] at hl
    rw [hup i (2 * t + 1)] at hr
    have hl' : freeBit b i (2 * t) = true := by
      rcases Bool.or_eq_true_iff.1 hl with hnew | hold
      · rcases Bool.and_eq_true_iff.1 hnew with ⟨_, h2⟩
        have := of_decide_eq_true h2
        omega
      · exact hold
    rcases Bool.or_eq_true_iff.1 hr with hnew | hold
    · rcases Bool.and_eq_true_iff.1 hnew with ⟨h1, h2⟩
      have hi : i = n := of_decide_eq_true h1
      have ht : 2 * t + 1 = idx * 2 + 1 := of_decide_eq_true h2
      have ht2 : idx = t := by omega
      subst hi
      subst ht2
      rw [show 2 * idx = idx * 2 from by ring] at hl'
      rw [hleft_false] at hl'
      exact Bool.noConfusion hl'
    · exact h.nosib i t ⟨hl', hold⟩
  · rw [info_updateLevel]
    omega

theorem splitDown_hole : ∀ (below : Nat) (b : BuddyBlock) (fit idx : Nat)
    (O : List (Nat × Nat)), fit ≤ below → BuddyWFHole b O below idx →
    BuddyWFHole (splitDown b fit below idx) O fit (idx * 2 ^ (below - fit)) := by
  intro below
  induction below with
  | zero =>
    intro b fit idx O hle h
    have hfit : fit = 0 := by omega
    subst hfit
    rw [splitDown_stop _ _ _ _ (by omega)]
    simpa using h
  | succ n ih =>
    intro b fit idx O hle h
    by_cases hf : n + 1 ≤ fit
    · have hfit : fit = n + 1 := by omega
      subst hfit
      rw [splitDown_stop _ _ _ _ (by omega)]
      simpa using h
    · rw [splitDown_step _ _ _ _ (by omega)]
      simp only [Nat.add_sub_cancel]
      have hstep := hole_step b O n idx h
      have := ih (updateLevel b n (bitSet1 (getLevel b n) (idx * 2 + 1))) fit (idx * 2) O
        (by omega) hstep
      have harith : idx * 2 * 2 ^ (n - fit) = idx * 2 ^ (n + 1 - fit) := by
        have hp : n + 1 - fit = (n - fit) + 1 := by omega
        rw [hp, pow_succ]
        ring
      rw [harith] at this
      exact this

theorem two_mul_xor_one (a : Nat) : 2 * a ^^^ 1 = 2 * a + 1 := by
  have h := Nat.xor_bit false a true 0
  simp [Nat.bit] at h
  exact h

theorem two_mul_add_one_xor_one (a : Nat) : (2 * a + 1) ^^^ 1 = 2 * a := by
  have h := Nat.xor_bit true a true 0
  simp [Nat.bit] at h
  exact h

theorem xor_one_even (bi : Nat) (h : bi % 2 = 0) : bi ^^^ 1 = bi + 1 := by
  have h2 : bi = 2 * (bi / 2) := by omega
  rw [h2, two_mul_xor_one]

theorem xor_one_odd (bi : Nat) (h : bi % 2 = 1) : bi ^^^ 1 = bi - 1 := by
  have h2 : bi = 2 * (bi / 2) + 1 := by omega
  rw [h2, two_mul_add_one_xor_one]
  omega

theorem xor_one_ne (bi : Nat) : bi ^^^ 1 ≠ bi := by
  rcases Nat.mod_two_eq_zero_or_one bi with h | h
  · rw [xor_one_even bi h]; omega
  · rw [xor_one_odd bi h]; omega

theorem xor_one_div8 (bi : Nat) : (bi ^^^ 1) / 8 = bi / 8 := by
  rcases Nat.mod_two_eq_zero_or_one bi with h | h
  · rw [xor_one_even bi h]; omega
  · rw [xor_one_odd bi h]; omega

theorem xor_one_mod8_ne (bi : Nat) : (bi ^^^ 1) % 8 ≠ bi % 8 := by
  rcases Nat.mod_two_eq_zero_or_one bi with h | h
  · rw [xor_one_even bi h]; omega
  · rw [xor_one_odd bi h]; omega

/-- The sibling pair containing `bi` is `{2*(bi/2), 2*(bi/2)+1} = {bi, bi^^^1}`. -/
theorem xor_one_pair (bi : Nat) :
    (2 * (bi / 2) = bi ∧ 2 * (bi / 2) + 1 = bi ^^^ 1) ∨
      (2 * (bi / 2) = bi ^^^ 1 ∧ 2 * (bi / 2) + 1 = bi) := by
  rcases Nat.mod_two_eq_zero_or_one bi with h | h
  · left
    rw [xor_one_even bi h]
    omega
  · right
    rw [xor_one_odd bi h]
    omega

theorem blockBitmap_eq (a b : BlockBitmap) (h1 : a.bits = b.bits)
    (h2 : a.count = b.count) : a = b := by
  cases a
  cases b
  cases h1
  cases h2
  rfl

theorem bitSet1_bits (bm : BlockBitmap) (k : Nat) :
    (bitSet1 bm k).bits =
      bm.bits.set (k / 8) ((bm.bits.getD (k / 8) 0) ||| (1 <<< (k % 8))) := rfl

theorem bitSet0_bits (bm : BlockBitmap) (k : Nat) :
    (bitSet0 bm k).bits =
      bm.bits.set (k / 8) ((bm.bits.getD (k / 8) 0) &&& (0xff ^^^ (1 <<< (k % 8)))) := rfl

theorem merge_byte (v r r' : Nat) (hr : r < 8) (hr' : r' < 8)
    (hne : r' ≠ r) (hbit : v.testBit r = false) :
    ((v ||| (1 <<< r)) &&& (0xff ^^^ (1 <<< r'))) &&& (0xff ^^^ (1 <<< r)) =
      v &&& (0xff ^^^ (1 <<< r')) := by
  apply Nat.eq_of_testBit_eq
  intro j
  have h255 : (0xff : Nat) = 2 ^ 8 - 1 := by norm_num
  simp only [Nat.testBit_and, Nat.testBit_or, Nat.one_shiftLeft, h255,
    Nat.testBit_xor, Nat.testBit_two_pow_sub_one]
  rcases eq_or_ne j r with rfl | hjr
  · simp [Nat.testBit_two_pow_self, hbit, hr]
  · rcases eq_or_ne j r' with rfl | hjr'
    · simp [Nat.testBit_two_pow_self, hr']
    · by_cases hj8 : j < 8
      · simp [Nat.testBit_two_pow_of_ne (Ne.symm hjr),
          Nat.testBit_two_pow_of_ne (Ne.symm hjr'), hj8]
      · simp [Nat.testBit_two_pow_of_ne (Ne.symm hjr),
          Nat.testBit_two_pow_of_ne (Ne.symm hjr'), hj8]

/-- The coalesce step's `set_1 bi; set_0 (bi^1); set_0 bi` collapses to a
single `set_0 (bi^1)` when bit `bi` was clear and bit `bi^1` set. -/
theorem bitmap_merge_eq (bm : BlockBitmap) (bi : Nat) (hbytes : bytesOk bm)
    (hk : bi / 8 < bm.bits.length) (hbi : bitGet bm bi = false)
    (hbuddy : bitGet bm (bi ^^^ 1) = true) :
    bitSet0 (bitSet0 (bitSet1 bm bi) (bi ^^^ 1)) bi = bitSet0 bm (bi ^^^ 1) := by
  have hdiv := xor_one_div8 bi
  have hlen1 : (bitSet1 bm bi).bits.length = bm.bits.length := length_bitSet1 _ _
  have hlen2 : (bitSet0 (bitSet1 bm bi) (bi ^^^ 1)).bits.length = bm.bits.length := by
    rw [length_bitSet0, hlen1]
  have hv : bm.bits.getD (bi / 8) 0 < 256 := by
    rw [List.getD_eq_getElem?_getD]
    have h0 : bm.bits[bi / 8]? = some bm.bits[bi / 8] := List.getElem?_eq_getElem hk
    rw [h0]
    exact hbytes _ (List.getElem_mem hk)
  have hget1 : (bitSet1 bm bi).bits.getD ((bi ^^^ 1) / 8) 0 =
      (bm.bits.getD (bi / 8) 0) ||| (1 <<< (bi % 8)) := by
    rw [bitSet1_bits, hdiv, getD_set_self _ _ _ _ hk]
  have hget2 : (bitSet0 (bitSet1 bm bi) (bi ^^^ 1)).bits.getD (bi / 8) 0 =
      ((bm.bits.getD (bi / 8) 0) ||| (1 <<< (bi % 8))) &&&
        (0xff ^^^ (1 <<< ((bi ^^^ 1) % 8))) := by
    rw [bitSet0_bits, hget1, hdiv, getD_set_self]
    rw [hlen1]
    exact hk
  apply blockBitmap_eq
  · rw [bitSet0_bits, hget2, bitSet0_bits (bitSet1 bm bi), hget1, bitSet1_bits,
      bitSet0_bits, hdiv, List.set_set, List.set_set]
    congr 1
    rw [merge_byte _ _ _ (Nat.mod_lt _ (by omega)) (Nat.mod_lt _ (by omega))
      (xor_one_mod8_ne bi)]
    rw [bitGet_eq_testBit] at hbi
    exact hbi
  · have hb1 : bitGet (bitSet1 bm bi) (bi ^^^ 1) = true := by
      rw [bitGet_bitSet1 _ _ _ hk]
      simp [hbuddy]
    have hb2 : bitGet (bitSet0 (bitSet1 bm bi) (bi ^^^ 1)) bi = true := by
      rw [bitGet_bitSet0 _ _ _ (by rw [hlen1, hdiv]; exact hk)]
      rw [bitGet_bitSet1 _ _ _ hk]
      simp [Ne.symm (xor_one_ne bi)]
    rw [count_bitSet0, hb2, count_bitSet0, hb1, count_bitSet1, hbi,
      count_bitSet0, hbuddy]
    simp

theorem countFree_pos (bm : BlockBitmap) (h : countFree bm ≠ 0) :
    ∃ j, j < 8 * bm.bits.length ∧ bitGet bm j = true := by
  unfold countFree at h
  rcases Finset.exists_ne_zero_of_sum_ne_zero h with ⟨j, hj, hne⟩
  refine ⟨j, Finset.mem_range.mp hj, ?_⟩
  rcases hb : bitGet bm j
  · rw [hb] at hne
    simp at hne
  · rfl

theorem countFree_zero (bm : BlockBitmap) (h : countFree bm = 0) (j : Nat)
    (hj : j < 8 * bm.bits.length) : bitGet bm j = false := by
  unfold countFree at h
  have hterm := (Finset.sum_eq_zero_iff).1 h j (Finset.mem_range.mpr hj)
  rcases hb : bitGet bm j
  · rfl
  · rw [hb] at hterm
    simp at hterm

theorem wf_set_used (b : BuddyBlock) (O : List (Nat × Nat)) (n : Nat)
    (h : BuddyWF b O) : BuddyWF { b with used := n } O :=
  ⟨h.levels_pos, h.len_eq, h.top_one, h.bits_len, h.bytes, h.bounds, h.counts,
    h.cover, h.obounds, h.nosib⟩

/-- Clearing a set bit `(j, m)` of a well-formed state leaves a well-formed
state with a hole at `(j, m)` — the first marking step of `alloc`. -/
theorem hole_of_hit (b : BuddyBlock) (O : List (Nat × Nat)) (j m : Nat)
    (hwf : BuddyWF b O) (hj : j < b.info.levels)
    (hm8 : m / 8 < (getLevel b j).bits.length)
    (hset : freeBit b j m = true) :
    BuddyWFHole (updateLevel b j (bitSet0 (getLevel b j) m)) O j m := by
  have hlen : b.bitmaps.length = b.info.levels := hwf.len_eq
  have hjb : j < b.bitmaps.length := by omega
  have hup := freeBit_updateLevel_set0 b j m hjb hm8
  refine ⟨hwf.levels_pos, ?_, hwf.top_one, ?_, ?_, ?_, ?_, ?_, hwf.obounds, ?_,
    hj, (hwf.bounds j m hset).2⟩
  · rw [length_updateLevel, info_updateLevel, hlen]
  · intro i hi
    rcases eq_or_ne i j with rfl | hne
    · rw [getLevel_updateLevel_self _ _ _ hjb, length_bitSet0]
      exact hwf.bits_len i hi
    · rw [getLevel_updateLevel_ne _ _ _ _ (Ne.symm hne)]
      exact hwf.bits_len i hi
  · intro i hi
    rcases eq_or_ne i j with rfl | hne
    · rw [getLevel_updateLevel_self _ _ _ hjb]
      exact bytesOk_bitSet0 _ _ (hwf.bytes i hi)
    · rw [getLevel_updateLevel_ne _ _ _ _ (Ne.symm hne)]
      exact hwf.bytes i hi
  · intro i k hfree
    rw [hup i k] at hfree
    exact hwf.bounds i k (Bool.and_eq_true_iff.1 hfree).2
  · intro i hi
    rcases eq_or_ne i j with rfl | hne
    · rw [getLevel_updateLevel_self _ _ _ hjb]
      have hg : bitGet (getLevel b i) m = true := hset
      have hcf := countFree_bitSet0 (getLevel b i) m hm8
      rw [hg] at hcf
      simp only [if_true] at hcf
      rw [count_bitSet0, hg]
      simp only [if_true]
      have hc := hwf.counts i hi
      omega
    · rw [getLevel_updateLevel_ne _ _ _ _ (Ne.symm hne)]
      exact hwf.counts i hi
  · intro u hu
    rw [info_updateLevel] at hu
    have hs := coverCount_set0 b O j m hlen hj hm8 hset u
    have hcov := hwf.cover u hu
    omega
  · intro i t hpair
    rcases hpair with ⟨hl, hr⟩
    rw [hup i (2 * t)] at hl
    rw [hup i (2 * t + 1)] at hr
    exact hwf.nosib i t ⟨(Bool.and_eq_true_iff.1 hl).2, (Bool.and_eq_true_iff.1 hr).2⟩

theorem allocCover_cons (p : Nat × Nat) (O : List (Nat × Nat)) (u : Nat) :
    allocCover (p :: O) u = (if u >>> p.1 = p.2 then 1 else 0) + allocCover O u := by
  unfold allocCover
  rw [List.map_cons, List.sum_cons]

/-- Recording the hole as an outstanding allocation restores full
well-formedness — the exit of `alloc`'s split loop. -/
theorem hole_close (b : BuddyBlock) (O : List (Nat × Nat)) (p : Nat × Nat)
    (h : BuddyWFHole b O p.1 p.2) : BuddyWF b (p :: O) := by
  refine ⟨h.levels_pos, h.len_eq, h.top_one, h.bits_len, h.bytes, h.bounds,
    h.counts, ?_, ?_, h.nosib⟩
  · intro u hu
    have hcov := h.coverH u hu
    unfold coverCount at hcov ⊢
    rw [allocCover_cons]
    omega
  · intro q hq
    rcases List.mem_cons.1 hq with rfl | hq'
    · exact ⟨h.lv_lt, h.idx_lt⟩
    · exact h.obounds q hq'

/-- Erasing one occurrence of `p` from the outstanding list removes exactly
the cover of its image block. -/
theorem allocCover_map_erase (A : List (Nat × Nat)) (p : Nat × Nat)
    (f : Nat × Nat → Nat × Nat) (hp : p ∈ A) (u : Nat) :
    allocCover ((A.erase p).map f) u + (if u >>> (f p).1 = (f p).2 then 1 else 0) =
      allocCover (A.map f) u := by
  induction A with
  | nil => cases hp
  | cons a A ih =>
    by_cases ha : a = p
    · subst ha
      rw [List.erase_cons_head, List.map_cons, allocCover_cons]
      omega
    · have hbeq : ¬(a == p) := by simp [ha]
      rw [List.erase_cons_tail hbeq, List.map_cons, List.map_cons,
        allocCover_cons, allocCover_cons]
      have hp' : p ∈ A := by
        rcases List.mem_cons.1 hp with heq | hmem
        · exact absurd heq.symm ha
        · exact hmem
      have := ih hp'
      omega

/-- Removing an outstanding allocation from a well-formed state leaves a
well-formed state with a hole at its block — the entry of `dealloc`. -/
theorem wf_open_map (b : BuddyBlock) (A : List (Nat × Nat)) (p : Nat × Nat)
    (f : Nat × Nat → Nat × Nat)
    (hwf : BuddyWF b (A.map f)) (hp : p ∈ A) :
    BuddyWFHole b ((A.erase p).map f) (f p).1 (f p).2 := by
  have hmem : f p ∈ A.map f := List.mem_map_of_mem f hp
  have hob := hwf.obounds (f p) hmem
  refine ⟨hwf.levels_pos, hwf.len_eq, hwf.top_one, hwf.bits_len, hwf.bytes,
    hwf.bounds, hwf.counts, ?_, ?_, hwf.nosib, hob.1, hob.2⟩
  · intro u hu
    have h1 := allocCover_map_erase A p f hp u
    have h2 := hwf.cover u hu
    unfold coverCount at h2 ⊢
    omega
  · intro q hq
    rcases List.mem_map.1 hq with ⟨a, ha, rfl⟩
    exact hwf.obounds (f a) (List.mem_map_of_mem f (List.mem_of_mem_erase ha))

/-- Setting the hole's own bit when its buddy is not free restores full
well-formedness — the non-merging exit of the coalesce loop. -/
theorem hole_fill (b : BuddyBlock) (O : List (Nat × Nat)) (lv idx : Nat)
    (h : BuddyWFHole b O lv idx)
    (hclear : freeBit b lv idx = false)
    (hbuddy : freeBit b lv (idx ^^^ 1) = false) :
    BuddyWF (updateLevel b lv (bitSet1 (getLevel b lv) idx)) O := by
  have hlen := h.len_eq
  have hlvb : lv < b.bitmaps.length := by rw [hlen]; exact h.lv_lt
  have hk8 : idx / 8 < (getLevel b lv).bits.length := by
    rw [h.bits_len lv h.lv_lt]
    have := h.idx_lt
    omega
  have hup := freeBit_updateLevel_set1 b lv idx hlvb hk8
  refine ⟨h.levels_pos, ?_, h.top_one, ?_, ?_, ?_, ?_, ?_, h.obounds, ?_⟩
  · rw [length_updateLevel, info_updateLevel, hlen]
  · intro i hi
    rcases eq_or_ne i lv with rfl | hne
    · rw [getLevel_updateLevel_self _ _ _ hlvb, length_bitSet1]
      exact h.bits_len i hi
    · rw [getLevel_updateLevel_ne _ _ _ _ (Ne.symm hne)]
      exact h.bits_len i hi
  · intro i hi
    rcases eq_or_ne i lv with rfl | hne
    · rw [getLevel_updateLevel_self _ _ _ hlvb]
      exact bytesOk_bitSet1 _ _ (h.bytes i hi)
    · rw [getLevel_updateLevel_ne _ _ _ _ (Ne.symm hne)]
      exact h.bytes i hi
  · intro i k hfree
    rw [hup i k] at hfree
    rcases Bool.or_eq_true_iff.1 hfree with hnew | hold
    · rcases Bool.and_eq_true_iff.1 hnew with ⟨h1, h2⟩
      have hi : i = lv := of_decide_eq_true h1
      have hk : k = idx := of_decide_eq_true h2
      subst hi
      subst hk
      exact ⟨h.lv_lt, h.idx_lt⟩
    · exact h.bounds i k hold
  · intro i hi
    rcases eq_or_ne i lv with rfl | hne
    · rw [getLevel_updateLevel_self _ _ _ hlvb]
      have hg : bitGet (getLevel b i) idx = false := hclear
      rw [count_bitSet1, countFree_bitSet1 _ _ hk8, hg]
      simp only [Bool.false_eq_true, if_false]
      rw [h.counts i hi]
    · rw [getLevel_updateLevel_ne _ _ _ _ (Ne.symm hne)]
      exact h.counts i hi
  · intro u hu
    rw [info_updateLevel] at hu
    rw [coverCount_set1 b O lv idx hlen h.lv_lt hk8 hclear u]
    have hcov := h.coverH u hu
    omega
  · intro i t hpair
    rcases hpair with ⟨hl, hr⟩
    rw [hup i (2 * t)] at hl
    rw [hup i (2 * t + 1)] at hr
    rcases Bool.or_eq_true_iff.1 hl with hlnew | hlold
    · rcases Bool.and_eq_true_iff.1 hlnew with ⟨h1, h2⟩
      have hi : i = lv := of_decide_eq_true h1
      have hk : 2 * t = idx := of_decide_eq_true h2
      subst hi
      have hxor : idx ^^^ 1 = 2 * t + 1 := by
        rw [xor_one_even idx (by omega)]
        omega
      rcases Bool.or_eq_true_iff.1 hr with hrnew | hrold
      · rcases Bool.and_eq_true_iff.1 hrnew with ⟨_, h4⟩
        have := of_decide_eq_true h4
        omega
      · rw [hxor] at hbuddy
        rw [hbuddy] at hrold
        exact Bool.noConfusion hrold
    · rcases Bool.or_eq_true_iff.1 hr with hrnew | hrold
      · rcases Bool.and_eq_true_iff.1 hrnew with ⟨h1, h2⟩
        have hi : i = lv := of_decide_eq_true h1
        have hk : 2 * t + 1 = idx := of_decide_eq_true h2
        subst hi
        have hxor : idx ^^^ 1 = 2 * t := by
          rw [xor_one_odd idx (by omega)]
          omega
        rw [hxor] at hbuddy
        rw [hbuddy] at hlold
        exact Bool.noConfusion hlold
      · exact h.nosib i t ⟨hlold, hrold⟩

/-- Clearing the buddy of the hole merges the pair into a hole one level
up — the merging step of the coalesce loop. -/
theorem merge_hole (b : BuddyBlock) (O : List (Nat × Nat)) (cur bi : Nat)
    (h : BuddyWFHole b O cur bi)
    (hbuddy : freeBit b cur (bi ^^^ 1) = true)
    (hcursucc : cur + 1 < b.info.levels) :
    BuddyWFHole (updateLevel b cur (bitSet0 (getLevel b cur) (bi ^^^ 1))) O
      (cur + 1) (bi / 2) := by
  have hlen := h.len_eq
  have hcurb : cur < b.bitmaps.length := by rw [hlen]; exact h.lv_lt
  have hbud_lt : bi ^^^ 1 < b.info.units >>> cur := (h.bounds cur (bi ^^^ 1) hbuddy).2
  have hk8 : (bi ^^^ 1) / 8 < (getLevel b cur).bits.length := by
    rw [h.bits_len cur h.lv_lt, xor_one_div8]
    have := h.idx_lt
    omega
  have hup := freeBit_updateLevel_set0 b cur (bi ^^^ 1) hcurb hk8
  have hidx2 : bi / 2 < b.info.units >>> (cur + 1) := by
    have hs : b.info.units >>> (cur + 1) = (b.info.units >>> cur) / 2 :=
      shiftRight_succ_half _ _
    have hbi_lt := h.idx_lt
    rcases xor_one_pair bi with ⟨he1, he2⟩ | ⟨he1, he2⟩ <;> omega
  refine ⟨h.levels_pos, ?_, h.top_one, ?_, ?_, ?_, ?_, ?_, h.obounds, ?_,
    hcursucc, hidx2⟩
  · rw [length_updateLevel, info_updateLevel, hlen]
  · intro i hi
    rcases eq_or_ne i cur with rfl | hne
    · rw [getLevel_updateLevel_self _ _ _ hcurb, length_bitSet0]
      exact h.bits_len i hi
    · rw [getLevel_updateLevel_ne _ _ _ _ (Ne.symm hne)]
      exact h.bits_len i hi
  · intro i hi
    rcases eq_or_ne i cur with rfl | hne
    · rw [getLevel_updateLevel_self _ _ _ hcurb]
      exact bytesOk_bitSet0 _ _ (h.bytes i hi)
    · rw [getLevel_updateLevel_ne _ _ _ _ (Ne.symm hne)]
      exact h.bytes i hi
  · intro i k hfree
    rw [hup i k] at hfree
    exact h.bounds i k (Bool.and_eq_true_iff.1 hfree).2
  · intro i hi
    rcases eq_or_ne i cur with rfl | hne
    · rw [getLevel_updateLevel_self _ _ _ hcurb]
      have hg : bitGet (getLevel b i) (bi ^^^ 1) = true := hbuddy
      have hcf := countFree_bitSet0 (getLevel b i) (bi ^^^ 1) hk8
      rw [hg] at hcf
      simp only [if_true] at hcf
      rw [count_bitSet0, hg]
      simp only [if_true]
      have hc := h.counts i hi
      omega
    · rw [getLevel_updateLevel_ne _ _ _ _ (Ne.symm hne)]
      exact h.counts i hi
  · intro u hu
    rw [info_updateLevel] at hu
    have hs := coverCount_set0 b O cur (bi ^^^ 1) hlen h.lv_lt hk8 hbuddy u
    have hch := child_indicator u cur (bi / 2)
    have hcov := h.coverH u hu
    rcases xor_one_pair bi with ⟨he1, he2⟩ | ⟨he1, he2⟩ <;>
      rw [he2, he1] at hch <;> omega
  · intro i t hpair
    rcases hpair with ⟨hl, hr⟩
    rw [hup i (2 * t)] at hl
    rw [hup i (2 * t + 1)] at hr
    exact h.nosib i t ⟨(Bool.and_eq_true_iff.1 hl).2, (Bool.and_eq_true_iff.1 hr).2⟩

theorem coalesce_wf (L : Nat) : ∀ (fuel : Nat) (b : BuddyBlock) (O : List (Nat × Nat))
    (bi cur : Nat) (b1 : BuddyBlock),
    BuddyWFHole b O cur bi →
    L = b.info.levels →
    b.info.levels ≤ cur + fuel →
    coalesceLoopGo L fuel b bi cur = .ok b1 →
    BuddyWF b1 O := by
  intro fuel
  induction fuel with
  | zero =>
    intro b O bi cur b1 h hL hfuel hrun
    exact absurd h.lv_lt (by omega)
  | succ n ih =>
    intro b O bi cur b1 h hL hfuel hrun
    have hlv := h.lv_lt
    have hlen := h.len_eq
    have hk8 : bi / 8 < (getLevel b cur).bits.length := by
      rw [h.bits_len cur hlv]
      have := h.idx_lt
      omega
    rcases hget : bitGet (getLevel b cur) bi
    · have heq : bitGet (bitSet1 (getLevel b cur) bi) (bi ^^^ 1) =
          bitGet (getLevel b cur) (bi ^^^ 1) := by
        rw [bitGet_bitSet1 _ _ _ hk8]
        simp [xor_one_ne bi]
      rcases hbud : bitGet (getLevel b cur) (bi ^^^ 1)
      · rw [coalesceLoopGo_done L n b bi cur hget (by rw [heq]; exact hbud)] at hrun
        injection hrun with hrun
        rw [← hrun]
        exact hole_fill b O cur bi h hget hbud
      · by_cases htop : cur + 1 ≥ L
        · rw [coalesceLoopGo_top L n b bi cur hget (by rw [heq]; exact hbud) htop] at hrun
          have hb1 : bi ^^^ 1 < b.info.units >>> cur := (h.bounds cur (bi ^^^ 1) hbud).2
          have hbi : bi < b.info.units >>> cur := h.idx_lt
          have htopone := h.top_one
          have hcur_eq : cur = b.info.levels - 1 := by omega
          rw [hcur_eq, htopone] at hb1 hbi
          have hne := xor_one_ne bi
          omega
        · have htop' : cur + 1 < L := by omega
          rw [coalesceLoopGo_merge L n b bi cur hget (by rw [heq]; exact hbud) htop'] at hrun
          have hstate : updateLevel (updateLevel b cur (bitSet1 (getLevel b cur) bi)) cur
              (bitSet0 (bitSet0 (bitSet1 (getLevel b cur) bi) (bi ^^^ 1)) bi) =
              updateLevel b cur (bitSet0 (getLevel b cur) (bi ^^^ 1)) := by
            rw [updateLevel_twice,
              bitmap_merge_eq (getLevel b cur) bi (h.bytes cur hlv) hk8 hget hbud]
          rw [hstate] at hrun
          have hole2 := merge_hole b O cur bi h hbud (by omega)
          refine ih _ O (bi / 2) (cur + 1) b1 hole2 ?_ ?_ hrun
          · rw [info_updateLevel, hL]
          · rw [info_updateLevel]
            omega
    · rcases coalesceLoopGo_assert L n b bi cur hget with ⟨msg, hmsg⟩
      rw [hmsg] at hrun
      exact Except.noConfusion hrun

/-- `dealloc` of the block of an outstanding allocation, with any length of
the same fit, restores well-formedness when it returns without panicking. -/
theorem dealloc_wf (b b1 : BuddyBlock) (O : List (Nat × Nat)) (lv idx len addr : Nat)
    (h : BuddyWFHole b O lv idx)
    (hda : dataAddr b % UNIT_SIZE = 0)
    (haddr : addr = dataAddr b + idx * (UNIT_SIZE <<< lv))
    (hfit : fitOf len = lv)
    (hlen0 : len ≠ 0)
    (hrun : b.dealloc addr len = .ok b1) :
    BuddyWF b1 O := by
  have hU : UNIT_SIZE = 4096 := rfl
  have hshl : UNIT_SIZE <<< lv = UNIT_SIZE * 2 ^ lv := Nat.shiftLeft_eq _ _
  have hshl_pos : 0 < UNIT_SIZE <<< lv := by
    rw [hshl]
    exact Nat.mul_pos (by rw [hU]; omega) (Nat.pos_pow_of_pos lv (by omega))
  have hmulmod : idx * (UNIT_SIZE <<< lv) % UNIT_SIZE = 0 := by
    rw [hshl, show idx * (UNIT_SIZE * 2 ^ lv) = (idx * 2 ^ lv) * UNIT_SIZE from by ring]
    exact Nat.mul_mod_left _ _
  have haddrU : addr % UNIT_SIZE = 0 := by
    rw [haddr]
    rw [hU] at hda hmulmod ⊢
    omega
  have haligned : addr / UNIT_SIZE * UNIT_SIZE = addr := by
    rw [hU] at haddrU ⊢
    omega
  have heq2 : divCeil (addr + len) UNIT_SIZE * UNIT_SIZE =
      addr + divCeil len UNIT_SIZE * UNIT_SIZE := by
    unfold divCeil
    rw [hU] at haddrU ⊢
    omega
  simp only [BuddyBlock.dealloc, if_neg hlen0] at hrun
  rw [haligned, heq2] at hrun
  have hsub : addr + divCeil len UNIT_SIZE * UNIT_SIZE - addr =
      divCeil len UNIT_SIZE * UNIT_SIZE := by omega
  rw [hsub] at hrun
  rw [show bitmap_index_for_size (divCeil len UNIT_SIZE * UNIT_SIZE) = lv from hfit] at hrun
  by_cases hc1 : ¬ (b.info.raw_addr + b.info.data_offset ≤ addr ∧
      addr < b.info.raw_addr + b.info.data_offset + (b.info.total_len - b.info.data_offset))
  · rw [if_pos hc1] at hrun
    exact Except.noConfusion hrun
  · rw [if_neg hc1] at hrun
    by_cases hc2 : ¬ (b.info.raw_addr + b.info.data_offset <
        addr + divCeil len UNIT_SIZE * UNIT_SIZE ∧
        addr + divCeil len UNIT_SIZE * UNIT_SIZE ≤
          b.info.raw_addr + b.info.data_offset + (b.info.total_len - b.info.data_offset))
    · rw [if_pos hc2] at hrun
      exact Except.noConfusion hrun
    · rw [if_neg hc2] at hrun
      rw [if_neg (not_not_intro (by rw [h.len_eq]; exact h.lv_lt))] at hrun
      have hbidx : (addr - (b.info.raw_addr + b.info.data_offset)) / (UNIT_SIZE <<< lv) =
          idx := by
        have hd : addr - (b.info.raw_addr + b.info.data_offset) =
            idx * (UNIT_SIZE <<< lv) := by
          rw [haddr]
          unfold dataAddr
          omega
        rw [hd]
        exact Nat.mul_div_cancel idx hshl_pos
      rw [hbidx] at hrun
      unfold coalesceLoop at hrun
      rcases hcl : coalesceLoopGo b.bitmaps.length b.bitmaps.length b idx lv with e | bc
      · rw [hcl] at hrun
        exact Except.noConfusion hrun
      · rw [hcl] at hrun
        simp only [Except.map] at hrun
        injection hrun with hrun
        rw [← hrun]
        exact wf_set_used bc O _
          (coalesce_wf b.bitmaps.length b.bitmaps.length b O idx lv bc h
            h.len_eq (by have h1 := h.len_eq; have h2 := h.lv_lt; omega) hcl)

theorem allocLoop_none_counts : ∀ (fuel : Nat) (b : BuddyBlock) (al fit j : Nat)
    (r : BuddyBlock), allocLoop b al fit fuel j = (none, r) →
    ∀ i, j ≤ i → i < b.bitmaps.length → i < j + fuel → (getLevel b i).count = 0 := by
  intro fuel
  induction fuel with
  | zero =>
    intro b al fit j r hrun i hji hilen hifuel
    omega
  | succ n ih =>
    intro b al fit j r hrun i hji hilen hifuel
    by_cases hj : j ≥ b.bitmaps.length
    · omega
    · push_neg at hj
      by_cases hc : (getLevel b j).count = 0
      · rw [allocLoop_skip b al fit n j hj hc] at hrun
        rcases eq_or_ne i j with rfl | hne
        · exact hc
        · exact ih b al fit (j + 1) r hrun i (by omega) hilen (by omega)
      · rw [allocLoop_hit b al fit n j hj hc] at hrun
        exact absurd (congrArg Prod.fst hrun) (by simp)

theorem allocLoop_all_zero_none : ∀ (fuel : Nat) (b : BuddyBlock) (al fit j : Nat),
    (∀ i, j ≤ i → i < b.bitmaps.length → (getLevel b i).count = 0) →
    allocLoop b al fit fuel j = (none, b) := by
  intro fuel
  induction fuel with
  | zero => intro b al fit j hz; rfl
  | succ n ih =>
    intro b al fit j hz
    by_cases hj : j ≥ b.bitmaps.length
    · exact allocLoop_stop b al fit (n + 1) j hj
    · push_neg at hj
      rw [allocLoop_skip b al fit n j hj (hz j (le_refl j) hj)]
      exact ih b al fit (j + 1) (fun i h1 h2 => hz i (by omega) h2)

/-- A successful search: the returned address is the base of a fresh
`fit`-level block, and recording that block keeps the state well-formed. -/
theorem allocLoop_some_spec : ∀ (fuel : Nat) (b : BuddyBlock) (O : List (Nat × Nat))
    (al fit j : Nat) (addr : Nat) (b' : BuddyBlock),
    BuddyWF b O → fit ≤ j →
    allocLoop b al fit fuel j = (some addr, b') →
    ∃ k, BuddyWF b' ((fit, k) :: O) ∧
      addr = dataAddr b + k * (UNIT_SIZE <<< fit) ∧
      k < b.info.units >>> fit ∧ b'.info = b.info ∧ b'.used = b.used + al := by
  intro fuel
  induction fuel with
  | zero =>
    intro b O al fit j addr b' hwf hfitj hrun
    exact absurd (congrArg Prod.fst hrun) (by simp [allocLoop])
  | succ n ih =>
    intro b O al fit j addr b' hwf hfitj hrun
    by_cases hj : j ≥ b.bitmaps.length
    · rw [allocLoop_stop b al fit (n + 1) j hj] at hrun
      exact absurd (congrArg Prod.fst hrun) (by simp)
    · push_neg at hj
      by_cases hc : (getLevel b j).count = 0
      · rw [allocLoop_skip b al fit n j hj hc] at hrun
        exact ih b O al fit (j + 1) addr b' hwf (by omega) hrun
      · rw [allocLoop_hit b al fit n j hj hc] at hrun
        obtain ⟨d, rfl⟩ : ∃ d, j = fit + d := ⟨j - fit, by omega⟩
        have hjlev : fit + d < b.info.levels := by
          rw [← hwf.len_eq]
          exact hj
        have hcf : countFree (getLevel b (fit + d)) ≠ 0 := by
          rw [← hwf.counts (fit + d) hjlev]
          exact hc
        have hfirst := first_1_spec (getLevel b (fit + d)) (hwf.bytes (fit + d) hjlev)
          (countFree_pos _ hcf)
        have hfree : freeBit b (fit + d) ((getLevel b (fit + d)).first_1) = true :=
          hfirst.1
        have hm8 : (getLevel b (fit + d)).first_1 / 8 <
            (getLevel b (fit + d)).bits.length := by
          have := hfirst.2
          omega
        have hole1 := hole_of_hit b O (fit + d) ((getLevel b (fit + d)).first_1)
          hwf hjlev hm8 hfree
        have hole2 := splitDown_hole (fit + d)
          (updateLevel b (fit + d)
            (bitSet0 (getLevel b (fit + d)) ((getLevel b (fit + d)).first_1)))
          fit ((getLevel b (fit + d)).first_1) O (by omega) hole1
        rw [Nat.add_sub_cancel_left] at hole2
        have hclose := hole_close _ O
          (fit, (getLevel b (fit + d)).first_1 * 2 ^ d) hole2
        have hwf3 := wf_set_used _ _
          ((splitDown (updateLevel b (fit + d)
            (bitSet0 (getLevel b (fit + d)) ((getLevel b (fit + d)).first_1)))
            fit (fit + d) ((getLevel b (fit + d)).first_1)).used + al) hclose
        rw [Prod.mk.injEq] at hrun
        obtain ⟨haddr, hstate⟩ := hrun
        injection haddr with haddr
        refine ⟨(getLevel b (fit + d)).first_1 * 2 ^ d, ?_, ?_, ?_, ?_, ?_⟩
        · rw [← hstate]
          exact hwf3
        · rw [← haddr]
          unfold dataAddr
          rw [Nat.shiftLeft_eq, Nat.shiftLeft_eq, pow_add]
          ring
        · have := hole2.idx_lt
          rw [splitDown_info, info_updateLevel] at this
          exact this
        · rw [← hstate]
          show (splitDown _ fit (fit + d) _).info = b.info
          rw [splitDown_info, info_updateLevel]
        · rw [← hstate]
          show (splitDown _ fit (fit + d) _).used + al = b.used + al
          rw [splitDown_used, updateLevel_used]

/-- A successful `alloc` call: public form of `allocLoop_some_spec`. -/
theorem alloc_some_wf (b b' : BuddyBlock) (O : List (Nat × Nat)) (len addr : Nat)
    (hwf : BuddyWF b O)
    (hrun : b.alloc len = .ok (some addr, b')) :
    ∃ k, BuddyWF b' ((fitOf len, k) :: O) ∧
      addr = dataAddr b + k * (UNIT_SIZE <<< fitOf len) ∧
      k < b.info.units >>> fitOf len ∧ b'.info = b.info ∧
      b'.used = b.used + alignedLenOf len := by
  simp only [BuddyBlock.alloc] at hrun
  by_cases h0 : len = 0
  · rw [if_pos h0] at hrun
    exact Except.noConfusion hrun
  · rw [if_neg h0] at hrun
    by_cases hfit : bitmap_index_for_size (divCeil len UNIT_SIZE * UNIT_SIZE) ≥
        b.bitmaps.length
    · rw [if_pos hfit] at hrun
      injection hrun with hrun
      rw [Prod.mk.injEq] at hrun
      exact Option.noConfusion hrun.1
    · rw [if_neg hfit] at hrun
      injection hrun with hrun
      exact allocLoop_some_spec b.bitmaps.length b O (divCeil len UNIT_SIZE * UNIT_SIZE)
        (bitmap_index_for_size (divCeil len UNIT_SIZE * UNIT_SIZE)) _ addr b' hwf
        (le_refl _) hrun

/-- Info is preserved by the coalesce loop. -/
theorem coalesceLoopGo_info (L : Nat) : ∀ (fuel : Nat) (b : BuddyBlock) (bi cur : Nat)
    (b1 : BuddyBlock), coalesceLoopGo L fuel b bi cur = .ok b1 → b1.info = b.info := by
  intro fuel
  induction fuel with
  | zero =>
    intro b bi cur b1 h
    injection h with h
    rw [← h]
  | succ n ih =>
    intro b bi cur b1 h
    simp only [coalesceLoopGo] at h
    split at h
    · exact Except.noConfusion h
    · split at h
      · split at h
        · injection h with h
          rw [← h, info_updateLevel]
        · have hrec := ih _ _ _ _ h
          rw [hrec, info_updateLevel, info_updateLevel]
      · injection h with h
        rw [← h, info_updateLevel]

/-- Info is preserved by a successful `dealloc`. -/
theorem dealloc_info (b b1 : BuddyBlock) (addr len : Nat)
    (h : b.dealloc addr len = .ok b1) : b1.info = b.info := by
  simp only [BuddyBlock.dealloc] at h
  by_cases h0 : len = 0
  · rw [if_pos h0] at h
    injection h with h
    rw [← h]
  · rw [if_neg h0] at h
    split at h
    · exact Except.noConfusion h
    · split at h
      · exact Except.noConfusion h
      · split at h
        · exact Except.noConfusion h
        · unfold coalesceLoop at h
          rcases hcl : coalesceLoopGo b.bitmaps.length b.bitmaps.length b
              ((addr / UNIT_SIZE * UNIT_SIZE - (b.info.raw_addr + b.info.data_offset)) /
                (UNIT_SIZE <<< bitmap_index_for_size
                  (divCeil (addr + len) UNIT_SIZE * UNIT_SIZE -
                    addr / UNIT_SIZE * UNIT_SIZE)))
              (bitmap_index_for_size (divCeil (addr + len) UNIT_SIZE * UNIT_SIZE -
                addr / UNIT_SIZE * UNIT_SIZE)) with e | bc
          · rw [hcl] at h
            exact Except.noConfusion h
          · rw [hcl] at h
            simp only [Except.map] at h
            injection h with h
            rw [← h]
            have hinfo := coalesceLoopGo_info _ _ _ _ _ _ hcl
            exact hinfo

/-- The constructed descriptor records the original base address, and the
data offset is unit-aligned. -/
theorem new_data_offset {raw len : Nat} {b : BuddyBlock}
    (h : BuddyBlock.new raw len = .ok b) :
    b.info.raw_addr = raw ∧ b.info.data_offset % UNIT_SIZE = 0 := by
  unfold BuddyBlock.new at h
  rcases h1 : BuddyBlockInfo.new raw len with msg | info
  · rw [h1, error_bind] at h
    exact Except.noConfusion h
  · rw [h1, ok_bind] at h
    injection h with h
    subst h
    unfold BuddyBlockInfo.new at h1
    rcases h2 : BuddyBlockInfo.from_chunk raw len with msg | tmp
    · rw [h2, error_bind] at h1
      exact Except.noConfusion h1
    · rw [h2, ok_bind] at h1
      rcases h3 : BuddyBlockInfo.from_chunk
          (raw + divCeil tmp.metadata_len UNIT_SIZE * UNIT_SIZE)
          (len - divCeil tmp.metadata_len UNIT_SIZE * UNIT_SIZE) with msg | inner
      · simp only [h3, error_bind] at h1
        exact Except.noConfusion h1
      · simp only [h3, ok_bind] at h1
        by_cases h4 : ¬ inner.metadata_len < divCeil tmp.metadata_len UNIT_SIZE * UNIT_SIZE
        · rw [if_pos h4] at h1
          exact Except.noConfusion h1
        · rw [if_neg h4] at h1
          injection h1 with h1
          subst h1
          exact ⟨rfl, Nat.mul_mod_left _ _⟩

theorem unit_shl_pos (n : Nat) : 0 < UNIT_SIZE <<< n := by
  rw [Nat.shiftLeft_eq]
  exact Nat.mul_pos (by decide) (Nat.pos_pow_of_pos n (by omega))

theorem entryOf_congr (b b' : BuddyBlock) (h : dataAddr b' = dataAddr b) :
    entryOf b' = entryOf b := by
  funext p
  unfold entryOf
  rw [h]

/-- Every reachable state is well-formed with respect to its outstanding
allocations, its data base is unit-aligned, and every outstanding address
is the base of its canonical block. -/
theorem reach_wf (b : BuddyBlock) (A : List (Nat × Nat)) (hr : Reach b A) :
    BuddyWF b (A.map (entryOf b)) ∧ dataAddr b % UNIT_SIZE = 0 ∧
      ∀ p ∈ A, p.2 ≠ 0 ∧
        p.1 = dataAddr b + ((p.1 - dataAddr b) / (UNIT_SIZE <<< fitOf p.2)) *
          (UNIT_SIZE <<< fitOf p.2) := by
  induction hr with
  | init raw len b halign h =>
    refine ⟨wf_init h, ?_, ?_⟩
    · rcases new_data_offset h with ⟨hraw, hoff⟩
      unfold dataAddr
      rw [hraw]
      have hU : UNIT_SIZE = 4096 := rfl
      rw [hU] at halign hoff ⊢
      omega
    · intro p hp
      cases hp
  | alloc_some b b' A len addr hr h ih =>
    obtain ⟨hwf, hda, hout⟩ := ih
    obtain ⟨k, hwf', haddr, hk, hinfo, hused⟩ := alloc_some_wf b b' _ len addr hwf h
    have hdaeq : dataAddr b' = dataAddr b := by
      unfold dataAddr
      rw [hinfo]
    have hlen0 : len ≠ 0 := by
      intro h0
      rw [h0] at h
      simp [BuddyBlock.alloc] at h
    have hdiv : (addr - dataAddr b) / (UNIT_SIZE <<< fitOf len) = k := by
      rw [haddr, Nat.add_sub_cancel_left]
      exact Nat.mul_div_cancel k (unit_shl_pos _)
    refine ⟨?_, by rw [hdaeq]; exact hda, ?_⟩
    · rw [List.map_cons, entryOf_congr b b' hdaeq]
      show BuddyWF b' ((fitOf len, (addr - dataAddr b) / (UNIT_SIZE <<< fitOf len)) ::
        A.map (entryOf b))
      rw [hdiv]
      exact hwf'
    · intro q hq
      rcases List.mem_cons.1 hq with rfl | hq'
      · refine ⟨hlen0, ?_⟩
        show addr = dataAddr b' +
          ((addr - dataAddr b') / (UNIT_SIZE <<< fitOf len)) * (UNIT_SIZE <<< fitOf len)
        rw [hdaeq, hdiv]
        exact haddr
      · rw [hdaeq]
        exact hout q hq'
  | alloc_none b b' A len hr h ih =>
    have hb := buddy_alloc_none_unchanged h
    subst hb
    exact ih
  | dealloc b b' A p hr hp h ih =>
    obtain ⟨hwf, hda, hout⟩ := ih
    obtain ⟨hp2, hpeq⟩ := hout p hp
    have hole := wf_open_map b A p (entryOf b) hwf hp
    have hinfo := dealloc_info b b' p.1 p.2 h
    have hdaeq : dataAddr b' = dataAddr b := by
      unfold dataAddr
      rw [hinfo]
    have hwf' := dealloc_wf b b' ((A.erase p).map (entryOf b)) (fitOf p.2)
      ((p.1 - dataAddr b) / (UNIT_SIZE <<< fitOf p.2)) p.2 p.1 hole hda hpeq rfl hp2 h
    refine ⟨?_, by rw [hdaeq]; exact hda, ?_⟩
    · rw [entryOf_congr b b' hdaeq]
      exact hwf'
    · intro q hq
      obtain ⟨hq2, hqeq⟩ := hout q (List.mem_of_mem_erase hq)
      rw [hdaeq]
      exact ⟨hq2, hqeq⟩

theorem bitmapIndexLoop_spec : ∀ (fuel idx size : Nat),
    size ≤ UNIT_SIZE <<< (idx + fuel) →
    size ≤ UNIT_SIZE <<< bitmapIndexLoop size fuel idx ∧
      idx ≤ bitmapIndexLoop size fuel idx ∧
      ∀ i, idx ≤ i → i < bitmapIndexLoop size fuel idx → UNIT_SIZE <<< i < size := by
  intro fuel
  induction fuel with
  | zero =>
    intro idx size hle
    simp only [bitmapIndexLoop]
    exact ⟨by simpa using hle, le_refl _, fun i h1 h2 => by omega⟩
  | succ n ih =>
    intro idx size hle
    simp only [bitmapIndexLoop]
    by_cases hc : UNIT_SIZE <<< idx < size
    · rw [if_pos hc]
      have hrec := ih (idx + 1) size (by
        have : idx + 1 + n = idx + (n + 1) := by omega
        rw [this]
        exact hle)
      refine ⟨hrec.1, by omega, ?_⟩
      intro i h1 h2
      rcases eq_or_ne i idx with rfl | hne
      · exact hc
      · exact hrec.2.2 i (by omega) h2
    · rw [if_neg hc]
      exact ⟨by omega, le_refl _, fun i h1 h2 => by omega⟩

theorem bitmap_index_for_size_spec (size : Nat) :
    size ≤ UNIT_SIZE <<< bitmap_index_for_size size ∧
      ∀ i < bitmap_index_for_size size, UNIT_SIZE <<< i < size := by
  have hfuel : size ≤ UNIT_SIZE <<< (0 + size) := by
    rw [Nat.zero_add, Nat.shiftLeft_eq]
    calc size ≤ 2 ^ size := Nat.le_of_lt (Nat.lt_two_pow size)
    _ ≤ UNIT_SIZE * 2 ^ size := Nat.le_mul_of_pos_left _ (by decide)
  have h := bitmapIndexLoop_spec size 0 size hfuel
  exact ⟨h.1, fun i hi => h.2.2 i (Nat.zero_le i) hi⟩

theorem countFree_pos_of_bit (bm : BlockBitmap) (m : Nat)
    (hm : m < 8 * bm.bits.length) (hget : bitGet bm m = true) :
    countFree bm ≠ 0 := by
  unfold countFree
  have hmem : m ∈ Finset.range (8 * bm.bits.length) := Finset.mem_range.mpr hm
  have hterm : (if bitGet bm m then (1:Nat) else 0) = 1 := by rw [hget]; rfl
  have hle : (if bitGet bm m then (1:Nat) else 0) ≤
      ∑ j ∈ Finset.range (8 * bm.bits.length), if bitGet bm j then 1 else 0 := by
    apply Finset.single_le_sum _ hmem
    intro i hi
    exact Nat.zero_le _
  omega

theorem countFree_eq_zero (bm : BlockBitmap) (h : ∀ j, bitGet bm j = false) :
    countFree bm = 0 := by
  unfold countFree
  exact Finset.sum_eq_zero (fun j _ => by rw [h j]; rfl)

/-- C8 (amended): for `len ≠ 0` on a well-formed state, `alloc len` targets
the least level `fitOf len` whose block size holds the unit-rounded request;
a returned address is `fitOf len`-block aligned relative to the data base
and its block lies within `units * UNIT_SIZE` bytes of the data base (which
can exceed the data region's byte length when `total_len` is not a unit
multiple); and the result is `none` exactly when no level at or above
`fitOf len` has a free block marked. -/
theorem c8_amended (b : BuddyBlock) (O : List (Nat × Nat)) (len : Nat)
    (hwf : BuddyWF b O) (hlen0 : len ≠ 0) :
    (alignedLenOf len ≤ UNIT_SIZE <<< fitOf len ∧
      ∀ i < fitOf len, UNIT_SIZE <<< i < alignedLenOf len) ∧
    (∀ addr b', b.alloc len = .ok (some addr, b') →
      ∃ k, addr = dataAddr b + k * (UNIT_SIZE <<< fitOf len) ∧
        (k + 1) * (UNIT_SIZE <<< fitOf len) ≤ b.info.units * UNIT_SIZE) ∧
    (∀ b', b.alloc len = .ok (none, b') →
      ∀ i m, fitOf len ≤ i → i < b.info.levels → freeBit b i m = false) ∧
    ((∀ i m, fitOf len ≤ i → i < b.info.levels → freeBit b i m = false) →
      b.alloc len = .ok (none, b)) := by
  have hspec := bitmap_index_for_size_spec (alignedLenOf len)
  refine ⟨⟨hspec.1, hspec.2⟩, ?_, ?_, ?_⟩
  · intro addr b' hrun
    obtain ⟨k, _, haddr, hk, _, _⟩ := alloc_some_wf b b' O len addr hwf hrun
    refine ⟨k, haddr, ?_⟩
    have hend : (k + 1) * 2 ^ fitOf len ≤ b.info.units :=
      block_end_le k b.info.units (fitOf len) hk
    rw [Nat.shiftLeft_eq]
    calc (k + 1) * (UNIT_SIZE * 2 ^ fitOf len) =
        ((k + 1) * 2 ^ fitOf len) * UNIT_SIZE := by ring
    _ ≤ b.info.units * UNIT_SIZE := Nat.mul_le_mul_right _ hend
  · intro b' hrun i m hfi hil
    rcases hfree : freeBit b i m
    · rfl
    · exfalso
      have hbounds := hwf.bounds i m hfree
      have hm8 : m < 8 * (getLevel b i).bits.length := by
        rw [hwf.bits_len i hil]
        omega
      have hcfpos := countFree_pos_of_bit (getLevel b i) m hm8 hfree
      have hcnt : (getLevel b i).count ≠ 0 := by
        rw [hwf.counts i hil]
        exact hcfpos
      simp only [BuddyBlock.alloc, if_neg hlen0] at hrun
      by_cases hfitlen : bitmap_index_for_size (divCeil len UNIT_SIZE * UNIT_SIZE) ≥
          b.bitmaps.length
      · have : i < b.bitmaps.length := by rw [hwf.len_eq]; exact hil
        have hfit' : fitOf len ≥ b.bitmaps.length := hfitlen
        omega
      · rw [if_neg hfitlen] at hrun
        injection hrun with hrun
        have hz := allocLoop_none_counts b.bitmaps.length b
          (divCeil len UNIT_SIZE * UNIT_SIZE)
          (bitmap_index_for_size (divCeil len UNIT_SIZE * UNIT_SIZE))
          (bitmap_index_for_size (divCeil len UNIT_SIZE * UNIT_SIZE)) b' hrun i
          hfi (by rw [hwf.len_eq]; exact hil)
          (by push_neg at hfitlen; rw [hwf.len_eq] at hfitlen ⊢; omega)
        exact hcnt hz
  · intro hall
    simp only [BuddyBlock.alloc, if_neg hlen0]
    by_cases hfitlen : bitmap_index_for_size (divCeil len UNIT_SIZE * UNIT_SIZE) ≥
        b.bitmaps.length
    · rw [if_pos hfitlen]
    · rw [if_neg hfitlen]
      rw [allocLoop_all_zero_none]
      intro i h1 h2
      rw [hwf.counts i (by rw [← hwf.len_eq]; exact h2)]
      apply countFree_eq_zero
      intro j
      exact hall i j h1 (by rw [← hwf.len_eq]; exact h2)

/-- C7: at every moment of any run — `construct` on a unit-aligned chunk
followed by `alloc` calls and `dealloc` of the address and length of
outstanding allocations — no two sibling blocks `(2k, 2k+1)` are both
marked free at any level. -/
theorem c7_no_free_siblings (b : BuddyBlock) (A : List (Nat × Nat))
    (hr : Reach b A) (i k : Nat) :
    ¬(freeBit b i (2 * k) = true ∧ freeBit b i (2 * k + 1) = true) :=
  (reach_wf b A hr).1.nosib i k

theorem c7_no_free_siblings_witness :
    ¬(freeBit (newOrDefault 0 0x3000) 0 0 = true ∧
      freeBit (newOrDefault 0 0x3000) 0 1 = true) :=
  c7_no_free_siblings (newOrDefault 0 0x3000) []
    (Reach.init 0 0x3000 _ (by decide) (by rfl)) 0 0

/-- C10: immediately after a successful `construct(raw, len)`, the used
counter is 0 and the blocks marked free across all levels cover every unit
of the data region exactly once (a partition of the data region). -/
theorem c10_init_partition (raw len : Nat) (b : BuddyBlock)
    (h : BuddyBlock.new raw len = .ok b) :
    b.used = 0 ∧ ∀ u < b.info.units, freeCover b u = 1 := by
  refine ⟨(buddy_new_ok h).1, ?_⟩
  intro u hu
  have hcov := (wf_init h).cover u hu
  unfold coverCount allocCover at hcov
  simp only [List.map_nil, List.sum_nil] at hcov
  omega

theorem c10_init_partition_witness :
    (newOrDefault 0 0x3000).used = 0 ∧ freeCover (newOrDefault 0 0x3000) 0 = 1 :=
  ⟨(c10_init_partition 0 0x3000 (newOrDefault 0 0x3000) (by rfl)).1,
   (c10_init_partition 0 0x3000 (newOrDefault 0 0x3000) (by rfl)).2 0 (by decide)⟩

theorem c8_amended_witness :
    ∃ k, 0x1000 = dataAddr (newOrDefault 0 0x3000) + k * (UNIT_SIZE <<< fitOf 1) ∧
      (k + 1) * (UNIT_SIZE <<< fitOf 1) ≤
        (newOrDefault 0 0x3000).info.units * UNIT_SIZE :=
  (c8_amended (newOrDefault 0 0x3000) [] 1
      (wf_init (show BuddyBlock.new 0 0x3000 = .ok (newOrDefault 0 0x3000) from rfl))
      (by decide)).2.1
    0x1000 (allocOrDefault (newOrDefault 0 0x3000) 1).2 (by rfl)

end Buddy

end Rigoros

namespace Rigoros

namespace Slab

theorem hdrOf_setHdr (s : SlabState) (a : Nat) (h : PageHeader) (a' : Nat) :
    hdrOf (setHdr s a h) a' = if a' = a then h else hdrOf s a' := by
  by_cases h1 : a = AVAIL
  · by_cases h2 : a' = a
    · have h3 : a' = AVAIL := h2.trans h1
      rw [if_pos h2]
      unfold hdrOf setHdr
      rw [if_pos h1, if_pos h3]
    · rw [if_neg h2]
      unfold hdrOf setHdr
      rw [if_pos h1]
      have h3 : a' ≠ AVAIL := fun hc => h2 (hc.trans h1.symm)
      rw [if_neg h3, if_neg h3]
  · by_cases h2 : a' = AVAIL
    · have h3 : a' ≠ a := fun hc => h1 (hc.symm.trans h2)
      rw [if_neg h3]
      unfold hdrOf setHdr
      rw [if_neg h1, if_pos h2, if_pos h2]
    · unfold hdrOf setHdr
      rw [if_neg h1, if_neg h2, if_neg h2]

theorem cfg_setHdr (s : SlabState) (a : Nat) (h : PageHeader) :
    (setHdr s a h).cfg = s.cfg := by
  unfold setHdr
  split <;> rfl

theorem mem_setHdr (s : SlabState) (a : Nat) (h : PageHeader) :
    (setHdr s a h).mem = s.mem := by
  unfold setHdr
  split <;> rfl

theorem objHdr_setHdr (s : SlabState) (a : Nat) (h : PageHeader) :
    (setHdr s a h).objHdr = s.objHdr := by
  unfold setHdr
  split <;> rfl

theorem provider_setHdr (s : SlabState) (a : Nat) (h : PageHeader) :
    (setHdr s a h).provider = s.provider := by
  unfold setHdr
  split <;> rfl

theorem hdrOf_setObj (s : SlabState) (a : Nat) (o : ObjectHeader) (a' : Nat) :
    hdrOf (setObj s a o) a' = hdrOf s a' := rfl

theorem hdrOf_setMem (s : SlabState) (a v a' : Nat) :
    hdrOf (setMem s a v) a' = hdrOf s a' := rfl

theorem objHdr_setObj (s : SlabState) (a : Nat) (o : ObjectHeader) (a' : Nat) :
    (setObj s a o).objHdr a' = if a' = a then o else s.objHdr a' := rfl

theorem objHdr_setMem (s : SlabState) (a v : Nat) :
    (setMem s a v).objHdr = s.objHdr := rfl

theorem mem_setObj (s : SlabState) (a : Nat) (o : ObjectHeader) :
    (setObj s a o).mem = s.mem := rfl

theorem mem_setMem (s : SlabState) (a v a' : Nat) :
    (setMem s a v).mem a' = if a' = a then v else s.mem a' := rfl

theorem cfg_setObj (s : SlabState) (a : Nat) (o : ObjectHeader) :
    (setObj s a o).cfg = s.cfg := rfl

theorem cfg_setMem (s : SlabState) (a v : Nat) :
    (setMem s a v).cfg = s.cfg := rfl

/-- Headers only change their named field under the field setters. -/
theorem count_hdrOf_setNext (s : SlabState) (a v p : Nat) :
    (hdrOf (setNext s a v) p).count = (hdrOf s p).count := by
  unfold setNext
  rw [hdrOf_setHdr]
  split
  · rename_i h
    subst h
    rfl
  · rfl

theorem count_hdrOf_setPrev (s : SlabState) (a v p : Nat) :
    (hdrOf (setPrev s a v) p).count = (hdrOf s p).count := by
  unfold setPrev
  rw [hdrOf_setHdr]
  split
  · rename_i h
    subst h
    rfl
  · rfl

theorem objHdr_setFree (s : SlabState) (a v : Nat) :
    (setFree s a v).objHdr = s.objHdr := objHdr_setHdr _ _ _

theorem objHdr_setCount (s : SlabState) (a v : Nat) :
    (setCount s a v).objHdr = s.objHdr := objHdr_setHdr _ _ _

theorem objHdr_setNext (s : SlabState) (a v : Nat) :
    (setNext s a v).objHdr = s.objHdr := objHdr_setHdr _ _ _

theorem objHdr_setPrev (s : SlabState) (a v : Nat) :
    (setPrev s a v).objHdr = s.objHdr := objHdr_setHdr _ _ _

theorem mem_setFree (s : SlabState) (a v : Nat) :
    (setFree s a v).mem = s.mem := mem_setHdr _ _ _

theorem mem_setCount (s : SlabState) (a v : Nat) :
    (setCount s a v).mem = s.mem := mem_setHdr _ _ _

theorem mem_setNext (s : SlabState) (a v : Nat) :
    (setNext s a v).mem = s.mem := mem_setHdr _ _ _

theorem mem_setPrev (s : SlabState) (a v : Nat) :
    (setPrev s a v).mem = s.mem := mem_setHdr _ _ _

theorem count_hdrOf_setFree (s : SlabState) (a v p : Nat) :
    (hdrOf (setFree s a v) p).count = (hdrOf s p).count := by
  unfold setFree
  rw [hdrOf_setHdr]
  split
  · rename_i h
    subst h
    rfl
  · rfl

theorem count_hdrOf_setCount_self (s : SlabState) (a v : Nat) :
    (hdrOf (setCount s a v) a).count = v := by
  unfold setCount
  rw [hdrOf_setHdr, if_pos rfl]

theorem pop_next_objHdr (s : SlabState) (page : Nat) :
    (page_list_pop_next s page).2.objHdr = s.objHdr := by
  simp only [page_list_pop_next]
  split
  · simp only [objHdr_setNext, objHdr_setPrev]
    split <;> simp only [objHdr_setPrev, objHdr_setNext]
  · rfl

theorem pop_next_mem (s : SlabState) (page : Nat) :
    (page_list_pop_next s page).2.mem = s.mem := by
  simp only [page_list_pop_next]
  split
  · simp only [mem_setNext, mem_setPrev]
    split <;> simp only [mem_setPrev, mem_setNext]
  · rfl

theorem pop_next_count (s : SlabState) (page p : Nat) :
    (hdrOf (page_list_pop_next s page).2 p).count = (hdrOf s p).count := by
  simp only [page_list_pop_next]
  split
  · simp only [count_hdrOf_setNext, count_hdrOf_setPrev]
    split <;> simp only [count_hdrOf_setPrev, count_hdrOf_setNext]
  · rfl

theorem push_next_objHdr (s : SlabState) (page new_page : Nat) :
    (page_list_push_next s page new_page).objHdr = s.objHdr := by
  simp only [page_list_push_next, objHdr_setNext]
  split <;> simp only [objHdr_setPrev, objHdr_setNext]

theorem push_next_mem (s : SlabState) (page new_page : Nat) :
    (page_list_push_next s page new_page).mem = s.mem := by
  simp only [page_list_push_next, mem_setNext]
  split <;> simp only [mem_setPrev, mem_setNext]

theorem remove_objHdr (s : SlabState) (page : Nat) :
    (page_list_remove s page).objHdr = s.objHdr := by
  simp only [page_list_remove, objHdr_setPrev, objHdr_setNext]
  split <;> split <;> simp only [objHdr_setNext, objHdr_setPrev]

theorem remove_mem (s : SlabState) (page : Nat) :
    (page_list_remove s page).mem = s.mem := by
  simp only [page_list_remove, mem_setPrev, mem_setNext]
  split <;> split <;> simp only [mem_setNext, mem_setPrev]

/-- C3 (amended): a successful `alloc_from_free` sets the popped slot's
magic to `OBJECT_MAGIC`, increments the page's allocation count and
returns the payload address — but writes no memory byte: the payload is
not zeroed; its first byte still holds `UNUSED_FILL` (enforced by the
`check_unused` assertion), and the other payload bytes are whatever they
were. -/
theorem c3_amended (s s' : SlabState) (p : Nat)
    (h : alloc_from_free s = .ok (p, s')) :
    p = (hdrOf s AVAIL).next + (hdrOf s ((hdrOf s AVAIL).next)).free +
      s.cfg.front_size ∧
    (s'.objHdr ((hdrOf s AVAIL).next + (hdrOf s ((hdrOf s AVAIL).next)).free)).magic =
      OBJECT_MAGIC ∧
    (hdrOf s' ((hdrOf s AVAIL).next)).count =
      (hdrOf s ((hdrOf s AVAIL).next)).count + 1 ∧
    (∀ a, s'.mem a = s.mem a) ∧
    s.mem p = UNUSED_FILL := by
  simp only [alloc_from_free] at h
  split at h
  · exact Except.noConfusion h
  · split at h
    · exact Except.noConfusion h
    · split at h
      · exact Except.noConfusion h
      · split at h
        · exact Except.noConfusion h
        · rename_i h1 h2 h3 h4
          have h4' : check_unused s ((hdrOf s AVAIL).next +
              (hdrOf s ((hdrOf s AVAIL).next)).free) = true := by
            by_cases hc : check_unused s ((hdrOf s AVAIL).next +
                (hdrOf s ((hdrOf s AVAIL).next)).free) = true
            · exact hc
            · exact absurd hc h4
          have hmem : s.mem ((hdrOf s AVAIL).next +
              (hdrOf s ((hdrOf s AVAIL).next)).free + s.cfg.front_size) = UNUSED_FILL := by
            unfold check_unused at h4'
            simpa using h4'
          split at h
          · injection h with h
            rw [Prod.mk.injEq] at h
            obtain ⟨hp, hs⟩ := h
            refine ⟨hp.symm, ?_, ?_, ?_, by rw [← hp]; exact hmem⟩
            · rw [← hs]
              simp [setObjNext, setMagic, objHdr_setFree, objHdr_setCount,
                objHdr_setObj]
            · rw [← hs]
              simp only [setObjNext, hdrOf_setObj, count_hdrOf_setFree,
                count_hdrOf_setCount_self, setMagic]
            · intro a
              rw [← hs]
              simp only [setObjNext, setMagic, mem_setObj, mem_setFree, mem_setCount]
          · rcases hk : kick_full_page (setFree (setCount (setMagic s
                ((hdrOf s AVAIL).next + (hdrOf s ((hdrOf s AVAIL).next)).free)
                OBJECT_MAGIC) ((hdrOf s AVAIL).next)
                ((hdrOf (setMagic s ((hdrOf s AVAIL).next +
                  (hdrOf s ((hdrOf s AVAIL).next)).free) OBJECT_MAGIC)
                  ((hdrOf s AVAIL).next)).count + 1)) ((hdrOf s AVAIL).next) 0)
                with e | s4
            · rw [hk] at h
              simp only [Except.map] at h
              exact Except.noConfusion h
            · rw [hk] at h
              simp only [Except.map] at h
              injection h with h
              rw [Prod.mk.injEq] at h
              obtain ⟨hp, hs⟩ := h
              simp only [kick_full_page] at hk
              rcases hpop : page_list_pop_next (setFree (setCount (setMagic s
                  ((hdrOf s AVAIL).next + (hdrOf s ((hdrOf s AVAIL).next)).free)
                  OBJECT_MAGIC) ((hdrOf s AVAIL).next)
                  ((hdrOf (setMagic s ((hdrOf s AVAIL).next +
                    (hdrOf s ((hdrOf s AVAIL).next)).free) OBJECT_MAGIC)
                    ((hdrOf s AVAIL).next)).count + 1)) ((hdrOf s AVAIL).next) 0)
                  AVAIL with ⟨kicked, s5⟩
              rw [hpop] at hk
              simp only at hk
              split at hk
              · exact Except.noConfusion hk
              · injection hk with hk
                have hs5 : s5 = (page_list_pop_next (setFree (setCount (setMagic s
                    ((hdrOf s AVAIL).next + (hdrOf s ((hdrOf s AVAIL).next)).free)
                    OBJECT_MAGIC) ((hdrOf s AVAIL).next)
                    ((hdrOf (setMagic s ((hdrOf s AVAIL).next +
                      (hdrOf s ((hdrOf s AVAIL).next)).free) OBJECT_MAGIC)
                      ((hdrOf s AVAIL).next)).count + 1)) ((hdrOf s AVAIL).next) 0)
                    AVAIL).2 := by
                  rw [hpop]
                refine ⟨hp.symm, ?_, ?_, ?_, by rw [← hp]; exact hmem⟩
                · rw [← hs, ← hk, hs5, pop_next_objHdr]
                  simp [setMagic, objHdr_setFree, objHdr_setCount, objHdr_setObj]
                · rw [← hs, ← hk, hs5, pop_next_count]
                  simp only [hdrOf_setObj, count_hdrOf_setFree,
                    count_hdrOf_setCount_self, setMagic]
                · intro a
                  rw [← hs, ← hk, hs5, pop_next_mem]
                  simp only [setMagic, mem_setObj, mem_setFree, mem_setCount]

/-- C4 (amended): a successful `dealloc(ptr)` overwrites exactly one byte —
the first payload byte, with `UNUSED_FILL` — and clears the slot's magic;
every other memory byte (including the rest of the payload) is untouched. -/
theorem c4_amended (s s' : SlabState) (ptr : Nat)
    (h : SlabAllocator.dealloc s ptr = .ok s') :
    s'.mem ptr = UNUSED_FILL ∧
    (s'.objHdr (ptr - s.cfg.front_size)).magic = 0 ∧
    (∀ a, a ≠ ptr → s'.mem a = s.mem a) := by
  simp only [SlabAllocator.dealloc] at h
  split at h
  · exact Except.noConfusion h
  · split at h
    · exact Except.noConfusion h
    · split at h
      · -- slot pushed with an explicit `next` link
        split at h
        · -- the page became empty: it is unlinked and given back
          injection h with h
          rw [← h]
          refine ⟨?_, ?_, ?_⟩
          · simp only [dealloc_page, remove_mem, mem_setFree, setObjNext, mem_setObj,
              setMagic, mem_setCount, mem_setMem]
            simp
          · simp only [dealloc_page, remove_objHdr, objHdr_setFree, setObjNext,
              objHdr_setObj, setMagic, objHdr_setCount, objHdr_setMem]
            simp
          · intro a hne
            simp only [dealloc_page, remove_mem, mem_setFree, setObjNext, mem_setObj,
              setMagic, mem_setCount, mem_setMem]
            rw [if_neg hne]
        · split at h
          · -- re-inserted into the available list
            simp only [insert_avail_page] at h
            split at h
            · exact Except.noConfusion h
            · injection h with h
              rw [← h]
              refine ⟨?_, ?_, ?_⟩
              · simp only [push_next_mem, mem_setFree, setObjNext, mem_setObj,
                  setMagic, mem_setCount, mem_setMem]
                simp
              · simp only [push_next_objHdr, objHdr_setFree, setObjNext,
                  objHdr_setObj, setMagic, objHdr_setCount, objHdr_setMem]
                simp
              · intro a hne
                simp only [push_next_mem, mem_setFree, setObjNext, mem_setObj,
                  setMagic, mem_setCount, mem_setMem]
                rw [if_neg hne]
          · injection h with h
            rw [← h]
            refine ⟨?_, ?_, ?_⟩
            · simp only [mem_setFree, setObjNext, mem_setObj, setMagic,
                mem_setCount, mem_setMem]
              simp
            · simp only [objHdr_setFree, setObjNext, objHdr_setObj, setMagic,
                objHdr_setCount, objHdr_setMem]
              simp
            · intro a hne
              simp only [mem_setFree, setObjNext, mem_setObj, setMagic,
                mem_setCount, mem_setMem]
              rw [if_neg hne]
      · -- page free list was empty: no `next` link written
        split at h
        · injection h with h
          rw [← h]
          refine ⟨?_, ?_, ?_⟩
          · simp only [dealloc_page, remove_mem, mem_setFree, setMagic, mem_setObj,
              mem_setCount, mem_setMem]
            simp
          · simp only [dealloc_page, remove_objHdr, objHdr_setFree, setMagic,
              objHdr_setObj, objHdr_setCount, objHdr_setMem]
            simp
          · intro a hne
            simp only [dealloc_page, remove_mem, mem_setFree, setMagic, mem_setObj,
              mem_setCount, mem_setMem]
            rw [if_neg hne]
        · split at h
          · simp only [insert_avail_page] at h
            split at h
            · exact Except.noConfusion h
            · injection h with h
              rw [← h]
              refine ⟨?_, ?_, ?_⟩
              · simp only [push_next_mem, mem_setFree, setMagic, mem_setObj,
                  mem_setCount, mem_setMem]
                simp
              · simp only [push_next_objHdr, objHdr_setFree, setMagic,
                  objHdr_setObj, objHdr_setCount, objHdr_setMem]
                simp
              · intro a hne
                simp only [push_next_mem, mem_setFree, setMagic, mem_setObj,
                  mem_setCount, mem_setMem]
                rw [if_neg hne]
          · injection h with h
            rw [← h]
            refine ⟨?_, ?_, ?_⟩
            · simp only [mem_setFree, setMagic, mem_setObj, mem_setCount, mem_setMem]
              simp
            · simp only [objHdr_setFree, setMagic, objHdr_setObj, objHdr_setCount,
                objHdr_setMem]
              simp
            · intro a hne
              simp only [mem_setFree, setMagic, mem_setObj, mem_setCount, mem_setMem]
              rw [if_neg hne]

/-- C5 (amended): the byte immediately before the payload is checked — so
that overwriting it makes `dealloc` panic — only when no padding separates
the front redzone from the payload, i.e. when `front_size = 4 +
REDZONE_SIZE` (payload alignment at most 4). Then that byte is the
redzone's last byte and any non-`REDZONE_FILL` value in it aborts
`dealloc`. -/
theorem c5_amended (s : SlabState) (p v : Nat)
    (hfront : s.cfg.front_size = 4 + REDZONE_SIZE)
    (hv : v ≠ REDZONE_FILL) (hp : 4 + REDZONE_SIZE ≤ p) :
    ∃ msg, SlabAllocator.dealloc (setMem s (p - 1) v) p = .error msg := by
  have hR : REDZONE_SIZE = 16 := rfl
  have hcfg : (setMem s (p - 1) v).cfg = s.cfg := cfg_setMem s _ _
  simp only [SlabAllocator.dealloc, hcfg, hfront]
  split
  · exact ⟨_, rfl⟩
  · have hfalse : check_redzone (setMem s (p - 1) v) (p - (4 + REDZONE_SIZE)) =
        false := by
      unfold check_redzone
      have h15 : ((List.range REDZONE_SIZE).all fun i =>
          (setMem s (p - 1) v).mem (p - (4 + REDZONE_SIZE) + 4 + i) ==
            REDZONE_FILL) = false := by
        apply List.all_eq_false.mpr
        refine ⟨15, List.mem_range.mpr (by rw [hR]; omega), ?_⟩
        have haddr : p - (4 + REDZONE_SIZE) + 4 + 15 = p - 1 := by
          rw [hR] at hp ⊢
          omega
        rw [haddr, mem_setMem, if_pos rfl]
        simp [hv]
      rw [h15]
      exact Bool.false_and _
    rw [if_pos (by rw [hfalse]; simp)]
    exact ⟨_, rfl⟩

/-- `alloc` that returns `None` leaves the state exactly as given. -/
theorem slab_alloc_none_unchanged (s s' : SlabState)
    (h : SlabAllocator.alloc s = .ok (none, s')) : s' = s := by
  simp only [SlabAllocator.alloc] at h
  split at h
  · rcases hap : alloc_page s with _ | r
    · simp only [hap] at h
      injection h with h
      rw [Prod.mk.injEq] at h
      exact h.2.symm
    · simp only [hap] at h
      rcases haf : alloc_from_free (page_list_push_tail r.2 AVAIL r.1) with e | q
      · simp only [haf, Except.map] at h
        exact Except.noConfusion h
      · simp only [haf, Except.map] at h
        injection h with h
        rw [Prod.mk.injEq] at h
        exact Option.noConfusion h.1
  · rcases haf : alloc_from_free s with e | q
    · simp only [haf, Except.map] at h
      exact Except.noConfusion h
    · simp only [haf, Except.map] at h
      injection h with h
      rw [Prod.mk.injEq] at h
      exact Option.noConfusion h.1

/-- C9: when `BuddyBlock::alloc` returns none (no sufficiently large free
block) and `SlabAllocator::alloc` returns none (empty partial-page list
and the page provider returned none), each allocator's state — bitmaps,
counts, used counter, page list and slot metadata — is returned exactly as
it was before the call. -/
theorem c9_alloc_none_unchanged (b b' : Buddy.BuddyBlock) (blen : Nat)
    (s s' : SlabState)
    (hb : b.alloc blen = .ok (none, b'))
    (hs : SlabAllocator.alloc s = .ok (none, s')) :
    b' = b ∧ s' = s :=
  ⟨Buddy.buddy_alloc_none_unchanged hb, slab_alloc_none_unchanged s s' hs⟩

theorem c9_alloc_none_unchanged_witness :
    Buddy.newOrDefault 0 0x3000 = Buddy.newOrDefault 0 0x3000 ∧
    newSlabOrDefault 32 8 [] = newSlabOrDefault 32 8 [] :=
  c9_alloc_none_unchanged (Buddy.newOrDefault 0 0x3000) (Buddy.newOrDefault 0 0x3000)
    0x100000 (newSlabOrDefault 32 8 []) (newSlabOrDefault 32 8 [])
    (by rfl) (by rfl)

/-- C1 is refuted by this run: payload 1260 with alignment 8 gives three
slots per page; with two provider pages, five allocations fill page `P1 =
0x10000` (kicked from the list when full) and open `P2 = 0x20000`; freeing
one slot of `P1` re-inserts it (list `avail → P1 → P2`), and freeing one
slot of `P2` — the tail, whose `next` is null — passes the
`page_list_is_singleton` assertion and is re-inserted too, leaving
`avail → P2 ⇄ P1`: the traversal `P2, P1, P2, …` is cyclic and `P2`
reachable twice. -/
theorem c1_page_list_cycle :
    (runOps (newSlabOrDefault 1260 8 [0x10000, 0x20000])
        [SlabOp.opAlloc, SlabOp.opAlloc, SlabOp.opAlloc, SlabOp.opAlloc,
         SlabOp.opAlloc, SlabOp.opDealloc 0x10030, SlabOp.opDealloc 0x20030]).map
      (fun r => (r.1, (r.2.availHdr.next, (r.2.pageHdr 0x20000).next,
        (r.2.pageHdr 0x10000).next))) =
      .ok ([some 0x10030, some 0x10548, some 0x10A60, some 0x20030, some 0x20548],
        (0x20000, 0x10000, 0x20000)) ∧
    (0x10000 : Nat) ≠ 0x20000 := ⟨rfl, by decide⟩

/-- C3's zeroing clause is refuted: on a fresh 1260-byte slab the first
`alloc` returns `0x10030` whose first payload byte is `UNUSED_FILL`, not
zero. -/
theorem c3_counterexample :
    (runOps (newSlabOrDefault 1260 8 [0x10000]) [SlabOp.opAlloc]).map
      (fun r => (r.1, r.2.mem 0x10030)) = .ok ([some 0x10030], UNUSED_FILL) ∧
    UNUSED_FILL ≠ 0 := ⟨rfl, by decide⟩

/-- C4's all-bytes clause is refuted: the owner writes `0x55` into payload
byte 1 of its live allocation; after a successful `dealloc` that byte still
reads `0x55`, not `POISON_FILL` — only payload byte 0 is overwritten. -/
theorem c4_counterexample :
    (runOps (newSlabOrDefault 1260 8 [0x10000])
        [SlabOp.opAlloc, SlabOp.opPoke 0x10031 0x55, SlabOp.opDealloc 0x10030]).map
      (fun r => (r.1, r.2.mem 0x10031)) = .ok ([some 0x10030], 0x55) ∧
    (0x55 : Nat) ≠ UNUSED_FILL ∧ (1 : Nat) < 1260 :=
  ⟨rfl, by decide, by decide⟩

/-- C5 is refuted for alignments with padding: with alignment 8 the byte
before the payload (`0x1002F`, slot padding) is covered by no redzone;
overwriting it and calling `dealloc` completes without a panic. -/
theorem c5_counterexample :
    isOkE (runOps (newSlabOrDefault 1260 8 [0x10000])
      [SlabOp.opAlloc, SlabOp.opPoke 0x1002F 0xAA, SlabOp.opDealloc 0x10030]) = true ∧
    (0xAA : Nat) ≠ REDZONE_FILL ∧
    (newSlabOrDefault 1260 8 [0x10000]).cfg.front_size = 24 ∧
    (0x1002F : Nat) = 0x10030 - 1 :=
  ⟨rfl, by decide, rfl, by decide⟩

theorem c3_amended_witness :
    (0x10548 : Nat) = (hdrOf c3S AVAIL).next +
      (hdrOf c3S ((hdrOf c3S AVAIL).next)).free + c3S.cfg.front_size ∧
    (c3S'.objHdr ((hdrOf c3S AVAIL).next +
      (hdrOf c3S ((hdrOf c3S AVAIL).next)).free)).magic = OBJECT_MAGIC ∧
    (hdrOf c3S' ((hdrOf c3S AVAIL).next)).count =
      (hdrOf c3S ((hdrOf c3S AVAIL).next)).count + 1 ∧
    (∀ a, c3S'.mem a = c3S.mem a) ∧
    c3S.mem 0x10548 = UNUSED_FILL :=
  c3_amended c3S c3S' 0x10548 (by rfl)

theorem c4_amended_witness :
    c4S'.mem 0x10030 = UNUSED_FILL ∧
    (c4S'.objHdr (0x10030 - c3S.cfg.front_size)).magic = 0 ∧
    (∀ a, a ≠ 0x10030 → c4S'.mem a = c3S.mem a) :=
  c4_amended c3S c4S' 0x10030 (by rfl)

theorem c5_amended_witness :
    ∃ msg, SlabAllocator.dealloc (setMem c5S (0x1002C - 1) 0xAA) 0x1002C =
      .error msg :=
  c5_amended c5S 0x1002C 0xAA (by rfl) (by decide) (by decide)

end Slab

end Rigoros
